import Mathlib

/-!
Verification of the archspec_cpp microarchitecture library.

This file shallowly embeds the core data model and algorithms of the
repository (src/src/microarchitecture.cpp and src/src/llvm_compat.cpp) in
Lean 4 and proves properties of the embedded definitions.

Modelling conventions:
* C++ `std::set<std::string>` becomes `Finset String` (`size()` is `card`).
* C++ `std::map<K,V>` becomes an association list `List (K × V)` with
  `List.lookup`; keys are unique in every store the library builds, so
  first-match lookup coincides with map lookup.
* `Microarchitecture::ancestors` recurses through the store via
  `MicroarchitectureDatabase::get`; the embedding makes that recursion
  explicit with a fuel parameter (`ancestorsF`).  The canonical
  `Microarchitecture.ancestors` instantiates the fuel with one more than
  the number of store entries, which exceeds the length of every
  parent chain whenever the parent graph is acyclic, so it computes the
  same list the C++ recursion does whenever the C++ recursion terminates.
* The platform probes (`get_machine`, `detect_cpu_info`) are out of scope;
  the detected signal and the architecture string are inputs of the
  embedded `host` and `compatible_microarchitectures`.
-/

namespace Archspec

/-- One version-range entry of a compiler table
(struct CompilerEntry in microarchitecture.hpp). -/
structure CompilerEntry where
  versions : String
  name     : String
  flags    : String
  warnings : String
deriving DecidableEq

/-- The value type of one microarchitecture descriptor
(class Microarchitecture in microarchitecture.hpp). -/
structure Microarchitecture where
  name         : String
  parent_names : List String
  vendor       : String
  features     : Finset String
  compilers    : List (String × List CompilerEntry)
  generation   : Int
  cpu_part     : String
deriving DecidableEq

/-- The C++ constructor `Microarchitecture::Microarchitecture`: stores the
fields and applies the ssse3-implies-sse3 correction to the feature set. -/
def mkMicroarchitecture (name : String) (parents : List String) (vendor : String)
    (features : Finset String) (compilers : List (String × List CompilerEntry))
    (generation : Int) (cpu_part : String) : Microarchitecture :=
  let features :=
    if "ssse3" ∈ features ∧ "sse3" ∉ features then insert "sse3" features else features
  ⟨name, parents, vendor, features, compilers, generation, cpu_part⟩

/-- `generic_microarchitecture(name)`: a fresh generic descriptor with no
features and no parents. -/
def generic_microarchitecture (name : String) : Microarchitecture :=
  mkMicroarchitecture name [] "generic" ∅ [] 0 ""

/-- The descriptor store (class MicroarchitectureDatabase): the target map
plus the auxiliary lookup tables. -/
structure MicroarchitectureDatabase where
  targets         : List (String × Microarchitecture)
  feature_aliases : List (String × Finset String)
  family_features : List (String × Finset String)
  darwin_flags    : List (String × String)
  arm_vendors     : List (String × String)
  loaded          : Bool
deriving DecidableEq

/-- `MicroarchitectureDatabase::get`: lookup of a descriptor by name
(`nullptr` becomes `none`). -/
def MicroarchitectureDatabase.get (db : MicroarchitectureDatabase) (name : String) :
    Option Microarchitecture :=
  db.targets.lookup name

/-- `MicroarchitectureDatabase::exists`. -/
def MicroarchitectureDatabase.exists_name (db : MicroarchitectureDatabase) (name : String) :
    Bool :=
  (db.get name).isSome

/-- The dedup-append loop of `Microarchitecture::ancestors`: append each
element of `as` to `r` unless it is already present (the
`std::find == end` guard before `push_back`). -/
def mergeUnique (r : List String) (as : List String) : List String :=
  as.foldl (fun r a => if a ∈ r then r else r ++ [a]) r

/-- The outer loop of `Microarchitecture::ancestors`: for each parent name,
push it unconditionally, then (when the store resolves it) merge that
parent's own ancestors, skipping names already collected.  `resolve`
stands for the recursive call on the looked-up parent. -/
def ancestorsLoop (resolve : String → Option (List String)) :
    List String → List String → List String
  | [], result => result
  | p :: ps, result =>
    let r1 := result ++ [p]
    match resolve p with
    | some panc => ancestorsLoop resolve ps (mergeUnique r1 panc)
    | none => ancestorsLoop resolve ps r1

/-- Fuelled embedding of `Microarchitecture::ancestors`.  The C++ method
recurses through the store with no bound; the fuel only limits the
recursion depth and is irrelevant once it exceeds the longest parent
chain. -/
def ancestorsF (db : MicroarchitectureDatabase) :
    Nat → Microarchitecture → List String
  | 0, _ => []
  | fuel + 1, m =>
    ancestorsLoop (fun p => (db.get p).map (fun parent => ancestorsF db fuel parent))
      m.parent_names []

/-- Fuel that exceeds the length of every parent chain of an acyclic store. -/
def dbFuel (db : MicroarchitectureDatabase) : Nat :=
  db.targets.length + 1

/-- `Microarchitecture::ancestors` at canonical fuel. -/
def Microarchitecture.ancestors (m : Microarchitecture)
    (db : MicroarchitectureDatabase) : List String :=
  ancestorsF db (dbFuel db) m

/-- `Microarchitecture::family`: a root is its own family; otherwise collect
the ancestors that are roots and return the first, falling back to the
descriptor's own name when none is found. -/
def Microarchitecture.family (m : Microarchitecture)
    (db : MicroarchitectureDatabase) : String :=
  if m.parent_names.isEmpty then m.name
  else
    let roots := (m.ancestors db).foldl (fun roots a =>
      match db.get a with
      | some anc =>
        if anc.parent_names.isEmpty ∧ a ∉ roots then roots ++ [a] else roots
      | none => roots) []
    match roots with
    | [] => m.name
    | r :: _ => r

/-- `Microarchitecture::to_set`: the descriptor's own name together with all
ancestor names, as a set. -/
def Microarchitecture.to_set (m : Microarchitecture)
    (db : MicroarchitectureDatabase) : Finset String :=
  insert m.name (m.ancestors db).toFinset

/-- `Microarchitecture::operator==`: structural equality on name, vendor,
features, parent names, generation and cpu part (the compiler table is not
compared). -/
def Microarchitecture.eqFields (a b : Microarchitecture) : Bool :=
  a.name == b.name && a.vendor == b.vendor && a.features == b.features &&
  a.parent_names == b.parent_names && a.generation == b.generation &&
  a.cpu_part == b.cpu_part

/-- `Microarchitecture::operator<`: proper-subset comparison of the
name-plus-ancestors sets, with the early size exit of the source. -/
def Microarchitecture.lt (a : Microarchitecture) (db : MicroarchitectureDatabase)
    (b : Microarchitecture) : Bool :=
  if (b.to_set db).card ≤ (a.to_set db).card then false
  else decide (a.to_set db ⊆ b.to_set db)

/-- `Microarchitecture::operator<=`: structural equality or strict order. -/
def Microarchitecture.le (a : Microarchitecture) (db : MicroarchitectureDatabase)
    (b : Microarchitecture) : Bool :=
  a.eqFields b || a.lt db b

/-- `Microarchitecture::operator>`. -/
def Microarchitecture.gt (a : Microarchitecture) (db : MicroarchitectureDatabase)
    (b : Microarchitecture) : Bool :=
  b.lt db a

/-- `Microarchitecture::operator>=`. -/
def Microarchitecture.ge (a : Microarchitecture) (db : MicroarchitectureDatabase)
    (b : Microarchitecture) : Bool :=
  b.le db a

/-- `Microarchitecture::has_feature`: direct feature, then alias table, then
family-implied feature table; unknown names fall through to `false`. -/
def Microarchitecture.has_feature (m : Microarchitecture)
    (db : MicroarchitectureDatabase) (feature : String) : Bool :=
  if feature ∈ m.features then true
  else
    let aliasHit :=
      match db.feature_aliases.lookup feature with
      | some aliased => decide ((aliased ∩ m.features).Nonempty)
      | none => false
    if aliasHit then true
    else
      match db.family_features.lookup feature with
      | some fams => decide (m.family db ∈ fams)
      | none => false

/-! ### Version parsing and compiler-flag resolution
(anonymous namespace of microarchitecture.cpp) -/

/-- Decimal value of a digit run (the accumulation `std::stoi` performs). -/
def natOfDigits (ds : List Char) : Nat :=
  ds.foldl (fun a c => a * 10 + (c.toNat - '0'.toNat)) 0

/-- The `std::stoi` call of `parse_version`: skip leading whitespace, read an
optional sign and a longest run of digits.  No digits means
`invalid_argument`, and a converted value outside the `int` range
(32 bits on every platform the library targets: INT_MAX = 2147483647,
INT_MIN = -2147483648) means `out_of_range`; both exceptions are the
`catch (...)` of the source, so both are `none` here. -/
def stoiParse (s : List Char) : Option Int :=
  match s.dropWhile (fun c => c = ' ' ∨ c = '\t' ∨ c = '\n' ∨ c = '\r') with
  | [] => none
  | c :: rest =>
    if c = '-' then
      let ds := rest.takeWhile Char.isDigit
      if ds = [] then none
      else if (2147483648 : Int) < (natOfDigits ds : Int) then none
      else some (-(natOfDigits ds : Int))
    else if c = '+' then
      let ds := rest.takeWhile Char.isDigit
      if ds = [] then none
      else if (2147483647 : Int) < (natOfDigits ds : Int) then none
      else some ((natOfDigits ds : Int))
    else
      let ds := (c :: rest).takeWhile Char.isDigit
      if ds = [] then none
      else if (2147483647 : Int) < (natOfDigits ds : Int) then none
      else some ((natOfDigits ds : Int))

/-- The `std::getline(ss, part, '.')` loop: split a character list at the
dots.  (`getline` drops a trailing empty field; `parse_version` filters
empty fields anyway, so the difference is unobservable there.) -/
def splitDots : List Char → List Char → List (List Char)
  | [], acc => [acc.reverse]
  | c :: rest, acc =>
    if c = '.' then acc.reverse :: splitDots rest [] else splitDots rest (acc ++ [c])

/-- `parse_version`: dot-separated fields, empty fields skipped, each field
read with `std::stoi` (fields where `stoi` throws are skipped). -/
def parse_version (version : String) : List Int :=
  (splitDots version.data []).filterMap fun part =>
    if part = [] then none else stoiParse part

/-- Tail of `compare_versions` once the left tuple is exhausted: the
padded loop compares 0 against each remaining right component. -/
def compareZeros : List Int → Int
  | [] => 0
  | b :: bs => if 0 < b then -1 else if b < 0 then 1 else compareZeros bs

/-- `compare_versions`: componentwise comparison, missing trailing
components treated as 0; returns -1, 0 or 1. -/
def compare_versions : List Int → List Int → Int
  | [], bs => compareZeros bs
  | a :: as, [] => if a < 0 then -1 else if 0 < a then 1 else compare_versions as []
  | a :: as, b :: bs => if a < b then -1 else if b < a then 1 else compare_versions as bs

/-- `satisfies_version`: a "MIN:MAX" constraint bounds the parsed version
from below and above (empty sides unbounded); a constraint with no colon
requires exact string equality. -/
def satisfies_version (constraint : String) (version : String) : Bool :=
  let cs := constraint.data
  if ':' ∉ cs then constraint == version
  else
    let min_ver := cs.takeWhile (· ≠ ':')
    let max_ver := (cs.dropWhile (· ≠ ':')).drop 1
    let ver := parse_version version
    if min_ver ≠ [] ∧ compare_versions ver (parse_version (String.mk min_ver)) < 0 then
      false
    else if max_ver ≠ [] ∧ compare_versions ver (parse_version (String.mk max_ver)) > 0 then
      false
    else true

/-- The `{name}` substitution loop of `optimization_flags`: every occurrence
of the placeholder is replaced and scanning resumes after the inserted
text. -/
def replaceNameAux (target : List Char) : List Char → List Char
  | '{' :: 'n' :: 'a' :: 'm' :: 'e' :: '}' :: rest => target ++ replaceNameAux target rest
  | c :: rest => c :: replaceNameAux target rest
  | [] => []

/-- String-level wrapper of the `{name}` substitution. -/
def replaceName (flags : String) (target : String) : String :=
  String.mk (replaceNameAux target.data flags.data)

/-- The ancestor-fallback loop of `optimization_flags`: first non-empty
result of querying the resolvable ancestors, else the empty string.
`resolve` stands for the recursive call on the looked-up ancestor. -/
def flagsFallbackLoop (resolve : String → Option String) : List String → String
  | [] => ""
  | an :: rest =>
    match resolve an with
    | some r => if r ≠ "" then r else flagsFallbackLoop resolve rest
    | none => flagsFallbackLoop resolve rest

/-- Fuelled embedding of `Microarchitecture::optimization_flags`: scan the
compiler's version-range entries in declared order, return the first
satisfied entry's flags with `{name}` substituted (override name, else the
descriptor's own name); otherwise fall back to the ancestors in ancestor
order. -/
def optimization_flagsF (db : MicroarchitectureDatabase) :
    Nat → Microarchitecture → String → String → String
  | 0, _, _, _ => ""
  | fuel + 1, m, compiler, version =>
    let direct : Option String :=
      match m.compilers.lookup compiler with
      | some entries =>
        if entries.isEmpty then none
        else
          match entries.find? (fun e => satisfies_version e.versions version) with
          | some e => some (replaceName e.flags (if e.name = "" then m.name else e.name))
          | none => none
      | none => none
    match direct with
    | some flags => flags
    | none =>
      flagsFallbackLoop
        (fun an => (db.get an).map fun anc => optimization_flagsF db fuel anc compiler version)
        (m.ancestors db)

/-- `Microarchitecture::optimization_flags` at canonical fuel. -/
def Microarchitecture.optimization_flags (m : Microarchitecture)
    (db : MicroarchitectureDatabase) (compiler version : String) : String :=
  optimization_flagsF db (dbFuel db) m compiler version

/-! ### LLVM name/feature translation (llvm_compat.cpp) -/

/-- `aarch64_feature_map`. -/
def aarch64_feature_map : List (String × String) :=
  [("asimd", "neon"), ("asimddp", "dotprod"), ("asimdfhm", "fp16fml"),
   ("asimdhp", "fullfp16"), ("asimdrdm", "rdm"), ("atomics", "lse"),
   ("crc32", "crc"), ("fcma", "complxnum"), ("fp", "fp-armv8"),
   ("fphp", "fullfp16"), ("jscvt", "jsconv"), ("lrcpc", "rcpc"),
   ("ilrcpc", "rcpc-immo"), ("paca", "pauth"), ("pacg", "pauth"),
   ("rng", "rand")]

/-- `aarch64_filter_out`. -/
def aarch64_filter_out : List String :=
  ["cpuid", "dcpodp", "dcpop", "dgh", "evtstrm", "flagm2", "frint",
   "uscat", "sha1", "sha512", "pmull", "svebf16", "svei8mm"]

/-- `x86_64_feature_map`. -/
def x86_64_feature_map : List (String × String) :=
  [("sse4_1", "sse4.1"), ("sse4_2", "sse4.2"), ("avx512_vnni", "avx512vnni"),
   ("avx512_bf16", "avx512bf16"), ("avx512_vbmi", "avx512vbmi"),
   ("avx512_vbmi2", "avx512vbmi2"), ("avx512_ifma", "avx512ifma"),
   ("avx512_vpopcntdq", "avx512vpopcntdq"),
   ("avx512_vp2intersect", "avx512vp2intersect"),
   ("avx512_bitalg", "avx512bitalg"), ("avx_vnni", "avxvnni"),
   ("lahf_lm", "sahf"), ("pclmulqdq", "pclmul"), ("rdrand", "rdrnd"),
   ("abm", "lzcnt"), ("bmi1", "bmi"), ("sha_ni", "sha"),
   ("amx_bf16", "amx-bf16"), ("amx_int8", "amx-int8"), ("amx_tile", "amx-tile")]

/-- `x86_64_filter_out`. -/
def x86_64_filter_out : List String :=
  ["3dnow", "3dnowext", "avx512er", "avx512pf"]

/-- `riscv_feature_map` (every entry maps to itself). -/
def riscv_feature_map : List (String × String) :=
  [("m", "m"), ("a", "a"), ("f", "f"), ("d", "d"), ("c", "c"), ("v", "v"),
   ("zba", "zba"), ("zbb", "zbb"), ("zbc", "zbc"), ("zbs", "zbs"),
   ("zfh", "zfh"), ("zfhmin", "zfhmin"), ("zvl128b", "zvl128b"),
   ("zvl256b", "zvl256b"), ("zvl512b", "zvl512b"), ("zvl1024b", "zvl1024b")]

/-- `riscv_filter_out` (empty). -/
def riscv_filter_out : List String := []

/-- `map_feature_to_llvm`: filter first, then rename, per family; families
outside the three known groups pass every feature through unchanged. -/
def map_feature_to_llvm (arch_family feature : String) : String :=
  if arch_family = "aarch64" then
    if feature ∈ aarch64_filter_out then ""
    else
      match aarch64_feature_map.lookup feature with
      | some mapped => mapped
      | none => feature
  else if arch_family = "x86_64" ∨ arch_family = "x86" then
    if feature ∈ x86_64_filter_out then ""
    else
      match x86_64_feature_map.lookup feature with
      | some mapped => mapped
      | none => feature
  else if arch_family = "riscv64" ∨ arch_family = "riscv32" then
    if feature ∈ riscv_filter_out then ""
    else
      match riscv_feature_map.lookup feature with
      | some mapped => mapped
      | none => feature
  else feature

/-- `get_llvm_features`: map every feature of the descriptor, dropping the
features that map to the empty string. -/
def get_llvm_features (db : MicroarchitectureDatabase) (uarch : Microarchitecture) :
    Finset String :=
  (uarch.features.image fun feat => map_feature_to_llvm (uarch.family db) feat).filter
    (fun s => s ≠ "")

/-- `aarch64_cpu_map` (forward CPU-name translation). -/
def aarch64_cpu_map : List (String × String) :=
  [("m1", "apple-m1"), ("m1_pro", "apple-m1"), ("m1_max", "apple-m1"),
   ("m1_ultra", "apple-m1"), ("m2", "apple-m2"), ("m2_pro", "apple-m2"),
   ("m2_max", "apple-m2"), ("m2_ultra", "apple-m2"), ("m3", "apple-m3"),
   ("m3_pro", "apple-m3"), ("m3_max", "apple-m3"), ("m3_ultra", "apple-m3"),
   ("m4", "apple-m4"), ("m4_pro", "apple-m4"), ("m4_max", "apple-m4"),
   ("a7", "apple-a7"), ("a8", "apple-a8"), ("a9", "apple-a9"),
   ("a10", "apple-a10"), ("a11", "apple-a11"), ("a12", "apple-a12"),
   ("a13", "apple-a13"), ("a14", "apple-a14"), ("a15", "apple-a15"),
   ("a16", "apple-a16"), ("a17", "apple-a17"),
   ("thunderx2", "thunderx2t99"), ("thunderx3", "thunderx3t110")]

/-- `x86_64_cpu_map` (forward CPU-name translation). -/
def x86_64_cpu_map : List (String × String) :=
  [("zen", "znver1"), ("zen2", "znver2"), ("zen3", "znver3"), ("zen4", "znver4"),
   ("icelake", "icelake-client"), ("icelake_server", "icelake-server"),
   ("sapphirerapids", "sapphirerapids"), ("alderlake", "alderlake"),
   ("meteorlake", "meteorlake")]

/-- `aarch64_cpu_reverse_map` (reverse CPU-name translation). -/
def aarch64_cpu_reverse_map : List (String × String) :=
  [("apple-m1", "m1"), ("apple-m2", "m2"), ("apple-m3", "m3"), ("apple-m4", "m4"),
   ("apple-a7", "a7"), ("apple-a8", "a8"), ("apple-a9", "a9"),
   ("apple-a10", "a10"), ("apple-a11", "a11"), ("apple-a12", "a12"),
   ("apple-a13", "a13"), ("apple-a14", "a14"), ("apple-a15", "a15"),
   ("apple-a16", "a16"), ("apple-a17", "a17"),
   ("thunderx2t99", "thunderx2"), ("thunderx3t110", "thunderx2"),
   ("cortex-a35", "aarch64"), ("cortex-a53", "aarch64"), ("cortex-a55", "aarch64"),
   ("cortex-a57", "aarch64"), ("cortex-a65", "aarch64"),
   ("cortex-a72", "cortex_a72"), ("cortex-a73", "cortex_a72"),
   ("cortex-a75", "cortex_a72"), ("cortex-a76", "cortex_a72"),
   ("cortex-a77", "cortex_a72"), ("cortex-a78", "cortex_a72"),
   ("cortex-a710", "cortex_a72"), ("cortex-x1", "cortex_a72"),
   ("cortex-x2", "cortex_a72"), ("cortex-x3", "cortex_a72"),
   ("neoverse-n1", "neoverse_n1"), ("neoverse-n2", "neoverse_n2"),
   ("neoverse-v1", "neoverse_v1"), ("neoverse-v2", "neoverse_v2"),
   ("carmel", "aarch64"), ("ampere1", "neoverse_n1"), ("ampere1a", "neoverse_n1")]

/-- `x86_64_cpu_reverse_map` (reverse CPU-name translation). -/
def x86_64_cpu_reverse_map : List (String × String) :=
  [("znver1", "zen"), ("znver2", "zen2"), ("znver3", "zen3"), ("znver4", "zen4"),
   ("icelake-client", "icelake"), ("icelake-server", "icelake_server"),
   ("skylake-avx512", "skylake_avx512"), ("cascadelake", "cascadelake"),
   ("cooperlake", "cooperlake")]

/-- Character-list test that `pre` starts the list `s` (the
`substr(0,k) == pre` and `find(pre) == 0` checks of the source). -/
def startsWithChars : List Char → List Char → Bool
  | [], _ => true
  | _ :: _, [] => false
  | p :: ps, c :: cs => p = c && startsWithChars ps cs

/-- Replace every hyphen by an underscore (the per-character loop of
`normalize_cpu_name`). -/
def hyphensToUnderscores (s : String) : String :=
  String.mk (s.data.map fun c => if c = '-' then '_' else c)

/-- `get_llvm_cpu_name`: family- and vendor-aware rename with the Apple
fall-back that adds an "apple-" front piece when the name begins with
'm' or 'a'. -/
def get_llvm_cpu_name (db : MicroarchitectureDatabase) (uarch : Microarchitecture) :
    String :=
  let name := uarch.name
  let family := uarch.family db
  let vendor := uarch.vendor
  if family = "aarch64" then
    let appleResult : Option String :=
      if vendor = "Apple" ∨ vendor = "apple" then
        match aarch64_cpu_map.lookup name with
        | some mapped => some mapped
        | none =>
          match name.data with
          | [] => none
          | c :: _ => if c = 'm' ∨ c = 'a' then some ("apple-" ++ name) else none
      else none
    match appleResult with
    | some r => r
    | none =>
      match aarch64_cpu_map.lookup name with
      | some mapped => mapped
      | none => name
  else if family = "x86_64" ∨ family = "x86" then
    match x86_64_cpu_map.lookup name with
    | some mapped => mapped
    | none => name
  else name

/-- `normalize_cpu_name`: explicit reverse-map lookup, else the generic
"apple-" strip / hyphen-to-underscore heuristics per family, else
unchanged. -/
def normalize_cpu_name (arch_family llvm_name : String) : String :=
  if arch_family = "aarch64" then
    match aarch64_cpu_reverse_map.lookup llvm_name with
    | some mapped => mapped
    | none =>
      if startsWithChars "apple-".data llvm_name.data then
        String.mk (llvm_name.data.drop 6)
      else if startsWithChars "cortex-".data llvm_name.data ∨
          startsWithChars "neoverse-".data llvm_name.data then
        hyphensToUnderscores llvm_name
      else llvm_name
  else if arch_family = "x86_64" ∨ arch_family = "x86" then
    match x86_64_cpu_reverse_map.lookup llvm_name with
    | some mapped => mapped
    | none => hyphensToUnderscores llvm_name
  else llvm_name

/-! ### Compatibility matcher (detect.hpp / the detection translation unit)

`get_machine` and `detect_cpu_info` are platform probes; the embedded
matcher takes the architecture string and the detected signal as inputs.
The aarch64 checker is compiled in two variants (macOS name-walking /
feature-based); the `apple` flag selects between them. -/

/-- `DetectedCpuInfo`: the flat detected-CPU record. -/
structure DetectedCpuInfo where
  name       : String
  vendor     : String
  features   : Finset String
  generation : Int
  cpu_part   : String
deriving DecidableEq

/-- Family-membership part of the checkers: the target is the named root or
has it among its ancestors. -/
def inFamily (db : MicroarchitectureDatabase) (target : Microarchitecture)
    (root : String) : Bool :=
  target.name = root ∨ root ∈ target.ancestors db

/-- `compatibility::check_x86_64`. -/
def check_x86_64 (db : MicroarchitectureDatabase) (info : DetectedCpuInfo)
    (target : Microarchitecture) : Bool :=
  match db.get "x86_64" with
  | none => false
  | some _ =>
    if ¬ inFamily db target "x86_64" then false
    else if target.vendor ≠ "generic" ∧ target.vendor ≠ info.vendor then false
    else decide (target.features ⊆ info.features)

/-- `compatibility::check_aarch64`.  The first guard rejects every
generic-vendor target other than the aarch64 root itself.  On the macOS
build (`apple = true`) the name walk can only exit early with `true` and
the function ends in `return true`, so every target that passes the guard,
family and vendor checks is accepted; on the other builds the target's
features must be contained in the signal's. -/
def check_aarch64 (apple : Bool) (db : MicroarchitectureDatabase)
    (info : DetectedCpuInfo) (target : Microarchitecture) : Bool :=
  if target.vendor = "generic" ∧ target.name ≠ "aarch64" then false
  else if ¬ inFamily db target "aarch64" then false
  else if target.vendor ≠ "generic" ∧ target.vendor ≠ info.vendor then false
  else if apple then true
  else decide (target.features ⊆ info.features)

/-- `compatibility::check_ppc64` (the machine string is an input). -/
def check_ppc64 (db : MicroarchitectureDatabase) (arch : String)
    (info : DetectedCpuInfo) (target : Microarchitecture) : Bool :=
  match db.get arch with
  | none => false
  | some _ =>
    if ¬ inFamily db target arch then false
    else decide (target.generation ≤ info.generation)

/-- `compatibility::check_riscv64`. -/
def check_riscv64 (db : MicroarchitectureDatabase) (info : DetectedCpuInfo)
    (target : Microarchitecture) : Bool :=
  match db.get "riscv64" with
  | none => false
  | some _ =>
    if ¬ inFamily db target "riscv64" then false
    else target.name = info.name ∨ target.vendor = "generic"

/-- `compatible_microarchitectures`: filter every stored descriptor with the
architecture-specific checker; an unknown architecture yields only the
architecture-named store entry; an empty filter result falls back to the
architecture-named store entry. -/
def compatible_microarchitectures (apple : Bool) (arch : String)
    (db : MicroarchitectureDatabase) (info : DetectedCpuInfo) :
    List Microarchitecture :=
  let checker? : Option (Microarchitecture → Bool) :=
    if arch = "x86_64" ∨ arch = "i686" ∨ arch = "i386" then
      some (check_x86_64 db info)
    else if arch = "aarch64" then some (check_aarch64 apple db info)
    else if arch = "ppc64" ∨ arch = "ppc64le" then some (check_ppc64 db arch info)
    else if arch = "riscv64" then some (check_riscv64 db info)
    else none
  match checker? with
  | none =>
    match db.get arch with
    | some g => [g]
    | none => []
  | some checker =>
    let result := (db.targets.map Prod.snd).filter checker
    if result.isEmpty then
      match db.get arch with
      | some g => [g]
      | none => []
    else result

/-- The ranking comparator of `host`: ancestor count first, feature count
second, ascending ("more specific" is greater). -/
def sortingLt (db : MicroarchitectureDatabase) (a b : Microarchitecture) : Bool :=
  let ad := (a.ancestors db).length
  let bd := (b.ancestors db).length
  if ad ≠ bd then decide (ad < bd) else decide (a.features.card < b.features.card)

/-- `std::max_element` with a strict comparator: scan keeping the current
maximum, replacing it whenever a later element compares greater. -/
def maxElement (lt : α → α → Bool) : List α → Option α
  | [] => none
  | x :: xs => some (xs.foldl (fun best e => if lt best e then e else best) x)

/-- `host`: pick the single best descriptor for a detected signal.
Candidates, best generic candidate, cpu-part narrowing (kept only when
non-empty), narrowing to strict descendants of the best generic (kept only
when non-empty), then the maximum under the ranking comparator. -/
def host (apple : Bool) (arch : String) (db : MicroarchitectureDatabase)
    (info : DetectedCpuInfo) : Microarchitecture :=
  let candidates := compatible_microarchitectures apple arch db info
  if candidates.isEmpty then generic_microarchitecture arch
  else
    let generic_candidates := candidates.filter fun c => c.vendor = "generic"
    let best_generic := maxElement (sortingLt db) generic_candidates
    -- the source reassigns `candidates` at each narrowing step
    let candidates1 :=
      if info.cpu_part ≠ "" then
        if (candidates.filter fun c => c.cpu_part = info.cpu_part).isEmpty then candidates
        else candidates.filter fun c => c.cpu_part = info.cpu_part
      else candidates
    let candidates2 :=
      match best_generic with
      | some bg =>
        if (candidates1.filter fun c => c.gt db bg).isEmpty then candidates1
        else candidates1.filter fun c => c.gt db bg
      | none => candidates1
    if candidates2.isEmpty then
      match best_generic with
      | some bg => bg
      | none => generic_microarchitecture arch
    else
      match maxElement (sortingLt db) candidates2 with
      | some best => best
      | none => generic_microarchitecture arch

/-! ### Descriptor-document ingestion (load_from_string / fill_target)

The document is modelled as a JSON value tree; the text parser itself is
external (`nlohmann::json::parse`), so `load_from_string` takes an
`Option Json` — `none` is a parse failure.  The `get<std::string>` /
`get<int>` conversions throw on a wrong type; each embedded accessor
returns `none` for the exception the source catches in
`load_from_json_internal`.  Mutations already performed when the
exception is thrown are kept, exactly as in the source. -/

/-- Structured document values (the nlohmann::json value tree). -/
inductive Json where
  | null : Json
  | bool : Bool → Json
  | num  : Int → Json
  | str  : String → Json
  | arr  : List Json → Json
  | obj  : List (String × Json) → Json

/-- `contains(key)`: only objects contain keys. -/
def Json.containsKey : Json → String → Bool
  | .obj fields, k => (fields.lookup k).isSome
  | _, _ => false

/-- `operator[](key)` under a `contains` guard. -/
def Json.getKey : Json → String → Json
  | .obj fields, k => (fields.lookup k).getD .null
  | _, _ => .null

/-- `get<std::string>()`: succeeds only on strings. -/
def Json.asString : Json → Option String
  | .str s => some s
  | _ => none

/-- `get<int>()`: succeeds only on numbers. -/
def Json.asInt : Json → Option Int
  | .num n => some n
  | _ => none

/-- `value(key, default)` with a string default: throws on a non-object,
returns the default when the key is absent, converts (or throws)
otherwise. -/
def Json.valueStr : Json → String → String → Option String
  | .obj fields, k, d =>
    match fields.lookup k with
    | none => some d
    | some v => v.asString
  | _, _, _ => none

/-- `value(key, default)` with an integer default. -/
def Json.valueInt : Json → String → Int → Option Int
  | .obj fields, k, d =>
    match fields.lookup k with
    | none => some d
    | some v => v.asInt
  | _, _, _ => none

/-- Range-for over a json value as nlohmann iterates it: the elements of an
array, the field values of an object, nothing for null, the value itself
for a scalar. -/
def Json.elems : Json → List Json
  | .arr xs => xs
  | .obj fields => fields.map Prod.snd
  | .null => []
  | v => [v]

/-- Key/value iteration (`it.key()` / `it.value()`): only objects support
`key()`; anything else throws. -/
def Json.fields? : Json → Option (List (String × Json))
  | .obj fields => some fields
  | _ => none

/-- Collect the elements as strings, failing on the first non-string. -/
def Json.strings (js : List Json) : Option (List String) :=
  js.mapM Json.asString

/-- Assignment into an association list (`std::map::operator[] =`): replace
the first binding of the key, or append a new one. -/
def listAssign {β : Type} (l : List (String × β)) (k : String) (v : β) :
    List (String × β) :=
  match l with
  | [] => [(k, v)]
  | (k', v') :: rest =>
    if k' = k then (k', v) :: rest else (k', v') :: listAssign rest k v

/-- One compiler entry of the document (`entry.value(...)` fields). -/
def parseCompilerEntry (entry : Json) : Option CompilerEntry := do
  let versions ← entry.valueStr "versions" ":"
  let name ← entry.valueStr "name" ""
  let flags ← entry.valueStr "flags" ""
  let warnings ← entry.valueStr "warnings" ""
  pure ⟨versions, name, flags, warnings⟩

/-- `MicroarchitectureDatabase::fill_target`: a name already present is a
per-entry no-op; otherwise read the fields (any conversion failure is the
exception propagated to the caller before anything is inserted) and append
the constructed descriptor. -/
def fillTarget (targets : List (String × Microarchitecture)) (name : String)
    (data : Json) : Option (List (String × Microarchitecture)) :=
  if (targets.lookup name).isSome then some targets
  else
    match
      (if data.containsKey "from" then Json.strings (data.getKey "from").elems
       else some []) with
    | none => none
    | some parents =>
      match data.valueStr "vendor" "generic" with
      | none => none
      | some vendor =>
        match
          (if data.containsKey "features" then
            (Json.strings (data.getKey "features").elems).map List.toFinset
          else some ∅) with
        | none => none
        | some features =>
          match
            (if data.containsKey "compilers" then
              (data.getKey "compilers").fields?.bind fun fields =>
                fields.mapM fun kv =>
                  (kv.2.elems.mapM parseCompilerEntry).map fun entries =>
                    (kv.1, entries)
            else some []) with
          | none => none
          | some compilers =>
            match data.valueInt "generation" 0 with
            | none => none
            | some generation =>
              match data.valueStr "cpupart" "" with
              | none => none
              | some cpu_part =>
                some (targets ++
                  [(name, mkMicroarchitecture name parents vendor features compilers
                      generation cpu_part)])

/-- The microarchitectures section loop: fill each target in document
order, stopping at the first exception with the mutations made so far. -/
def loadUarchsLoop (targets : List (String × Microarchitecture)) :
    List (String × Json) → List (String × Microarchitecture) × Bool
  | [] => (targets, true)
  | (k, v) :: rest =>
    match fillTarget targets k v with
    | some targets' => loadUarchsLoop targets' rest
    | none => (targets, false)

/-- The feature-aliases section loop: each alias key is assigned (overwriting
a previous binding) from its `any_of` list, and each family-implied feature
from its `families` list; a non-string element is the exception, keeping
the assignments made so far. -/
def loadAliasesLoop (aliases families : List (String × Finset String)) :
    List (String × Json) →
    (List (String × Finset String) × List (String × Finset String)) × Bool
  | [] => ((aliases, families), true)
  | (k, v) :: rest =>
    match
      (if v.containsKey "any_of" then
        (Json.strings (v.getKey "any_of").elems).map fun fs =>
          listAssign aliases k fs.toFinset
      else some aliases) with
    | none => ((aliases, families), false)
    | some aliases' =>
      match
        (if v.containsKey "families" then
          (Json.strings (v.getKey "families").elems).map fun fs =>
            listAssign families k fs.toFinset
        else some families) with
      | none => ((aliases', families), false)
      | some families' => loadAliasesLoop aliases' families' rest

/-- A string-to-string conversion table loop (`darwin_flags`, `arm_vendors`):
assignment per key, stopping at the first non-string value. -/
def loadStringMapLoop (table : List (String × String)) :
    List (String × Json) → List (String × String) × Bool
  | [] => (table, true)
  | (k, v) :: rest =>
    match v.asString with
    | some s => loadStringMapLoop (listAssign table k s) rest
    | none => (table, false)

/-- The microarchitectures section of `load_from_json_internal` (iteration
of a non-object section throws before any mutation). -/
def loadStage1 (db : MicroarchitectureDatabase) (j : Json) :
    MicroarchitectureDatabase × Bool :=
  if j.containsKey "microarchitectures" then
    match (j.getKey "microarchitectures").fields? with
    | some fields =>
      let (targets', ok) := loadUarchsLoop db.targets fields
      ({ db with targets := targets' }, ok)
    | none => (db, false)
  else (db, true)

/-- The feature-aliases section of `load_from_json_internal`. -/
def loadStage2 (db : MicroarchitectureDatabase) (j : Json) :
    MicroarchitectureDatabase × Bool :=
  if j.containsKey "feature_aliases" then
    match (j.getKey "feature_aliases").fields? with
    | some fields =>
      let ((aliases', families'), ok) :=
        loadAliasesLoop db.feature_aliases db.family_features fields
      ({ db with feature_aliases := aliases', family_features := families' }, ok)
    | none => (db, false)
  else (db, true)

/-- The darwin-flags table of the conversions section. -/
def loadDarwin (db : MicroarchitectureDatabase) (conv : Json) :
    MicroarchitectureDatabase × Bool :=
  if conv.containsKey "darwin_flags" then
    match (conv.getKey "darwin_flags").fields? with
    | some fields =>
      let (table', ok) := loadStringMapLoop db.darwin_flags fields
      ({ db with darwin_flags := table' }, ok)
    | none => (db, false)
  else (db, true)

/-- The arm-vendors table of the conversions section. -/
def loadArm (db : MicroarchitectureDatabase) (conv : Json) :
    MicroarchitectureDatabase × Bool :=
  if conv.containsKey "arm_vendors" then
    match (conv.getKey "arm_vendors").fields? with
    | some fields =>
      let (table', ok) := loadStringMapLoop db.arm_vendors fields
      ({ db with arm_vendors := table' }, ok)
    | none => (db, false)
  else (db, true)

/-- The conversions section of `load_from_json_internal` (darwin flags,
then arm vendor codes). -/
def loadStage3 (db : MicroarchitectureDatabase) (j : Json) :
    MicroarchitectureDatabase × Bool :=
  if j.containsKey "conversions" then
    let conv := j.getKey "conversions"
    let (db1, ok1) := loadDarwin db conv
    if ¬ ok1 then (db1, false) else loadArm db1 conv
  else (db, true)

/-- `load_from_json_internal`: process the three sections in order; the
first exception stops processing, keeping every mutation already made,
and yields `false`. -/
def loadFromJson (db : MicroarchitectureDatabase) (j : Json) :
    MicroarchitectureDatabase × Bool :=
  let (db1, ok1) := loadStage1 db j
  if ¬ ok1 then (db1, false)
  else
    let (db2, ok2) := loadStage2 db1 j
    if ¬ ok2 then (db2, false)
    else
      let (db3, ok3) := loadStage3 db2 j
      if ¬ ok3 then (db3, false)
      else ({ db3 with loaded := true }, true)

/-- `load_from_string`: a parse failure (`none`) yields `false` with the
store untouched; otherwise the document is ingested. -/
def loadFromString (db : MicroarchitectureDatabase) (parsed : Option Json) :
    MicroarchitectureDatabase × Bool :=
  match parsed with
  | none => (db, false)
  | some j => loadFromJson db j

/-! ### Specification-side description of optimization_flags (for C5)

These definitions follow the specification's words, to be compared with
the embedding of the source: "Versions are dot-separated integer tuples
compared lexicographically component-by-component, missing trailing
components treated as 0", satisfied "iff the tuple is componentwise ≥ MIN
and ≤ MAX", first matching entry in declared order, `{name}` substitution
with the override name or the descriptor's own name, ancestor fallback in
ancestor order returning the first non-empty result, empty string
otherwise. -/

/-- The spec's dot-separated integer tuple of a version string: the decimal
value of each digit component. -/
def specTuple (s : String) : List Int :=
  (splitDots s.data []).map fun part => (natOfDigits part : Int)

/-- Tail of the spec's tuple order once the left tuple is exhausted
(zero-padding against the remaining right components). -/
def verLeZeros : List Int → Bool
  | [] => true
  | b :: bs => if 0 < b then true else if b < 0 then false else verLeZeros bs

/-- The spec's lexicographic tuple order with missing trailing components
treated as 0. -/
def verLe : List Int → List Int → Bool
  | [], bs => verLeZeros bs
  | a :: as, [] => if a < 0 then true else if 0 < a then false else verLe as []
  | a :: as, b :: bs => if a < b then true else if b < a then false else verLe as bs

/-- The spec's version-constraint satisfaction: "MIN:MAX" with either side
possibly empty (unbounded), tuple-≥ MIN and tuple-≤ MAX; a constraint with
no colon requires exact string equality. -/
def specSatisfiesVersion (constraint : String) (version : String) : Bool :=
  let cs := constraint.data
  if ':' ∉ cs then constraint == version
  else
    let minS := cs.takeWhile (· ≠ ':')
    let maxS := (cs.dropWhile (· ≠ ':')).drop 1
    (minS = [] ∨ verLe (specTuple (String.mk minS)) (specTuple version)) ∧
    (maxS = [] ∨ verLe (specTuple version) (specTuple (String.mk maxS)))

/-- The spec's description of `optimization_flags`, at the same fuel as the
source embedding: first satisfied entry in declared order (`find?`),
`{name}` substituted with the override or the descriptor's own name, else
the first non-empty ancestor result (`findSome?`), else empty. -/
def optimizationFlagsSpecF (db : MicroarchitectureDatabase) :
    Nat → Microarchitecture → String → String → String
  | 0, _, _, _ => ""
  | fuel + 1, m, compiler, version =>
    let direct : Option String :=
      match m.compilers.lookup compiler with
      | some entries =>
        match entries.find? (fun e => specSatisfiesVersion e.versions version) with
        | some e => some (replaceName e.flags (if e.name = "" then m.name else e.name))
        | none => none
      | none => none
    match direct with
    | some flags => flags
    | none =>
      ((m.ancestors db).findSome? fun an =>
        (db.get an).bind fun anc =>
          let r := optimizationFlagsSpecF db fuel anc compiler version
          if r = "" then none else some r).getD ""

/-- A well-formed dotted numeral: every component a non-empty digit run
whose value fits in a 32-bit signed `int`.  The spec's version-matching
description presumes such versions; a component beyond INT_MAX makes the
source's `std::stoi` throw `out_of_range` and the component is skipped,
deviating from the plain tuple semantics. -/
def wellFormedVer (s : String) : Bool :=
  (splitDots s.data []).all fun part =>
    part ≠ [] ∧ part.all Char.isDigit ∧ natOfDigits part ≤ 2147483647

/-- A well-formed version constraint: both sides of the colon are empty or
well-formed dotted numerals (a no-colon constraint is compared as a plain
string by both descriptions). -/
def wellFormedConstraint (c : String) : Bool :=
  let cs := c.data
  if ':' ∉ cs then true
  else
    let minS := cs.takeWhile (· ≠ ':')
    let maxS := (cs.dropWhile (· ≠ ':')).drop 1
    (minS = [] ∨ wellFormedVer (String.mk minS)) ∧
    (maxS = [] ∨ wellFormedVer (String.mk maxS))

/-- Every version constraint of a descriptor's compiler table is
well-formed. -/
def wellFormedMicro (m : Microarchitecture) : Bool :=
  m.compilers.all fun kv => kv.2.all fun e => wellFormedConstraint e.versions

/-- Every version constraint stored anywhere in the database is
well-formed. -/
def wellFormedDb (db : MicroarchitectureDatabase) : Bool :=
  db.targets.all fun kv => wellFormedMicro kv.2

/-! ### Concrete stores and signals used to instantiate the theorems -/

/-- The aarch64 names whose forward translation maps back to them. -/
def aarch64RoundtripNames : List String :=
  ["m1", "m2", "m3", "m4", "a7", "a8", "a9", "a10", "a11", "a12", "a13",
   "a14", "a15", "a16", "a17", "thunderx2"]

/-- An x86_64 family root. -/
def exRootX : Microarchitecture := ⟨"x86_64", [], "generic", {"sse2"}, [], 0, ""⟩

/-- A haswell-like descriptor with a gcc flag entry. -/
def exHaswell : Microarchitecture :=
  ⟨"haswell", ["x86_64"], "GenuineIntel", {"sse2", "avx2", "fma"},
   [("gcc", [⟨"4.9:", "", "-march={name} -mtune={name}", ""⟩])], 0, ""⟩

/-- A two-entry x86_64 store. -/
def exDbX : MicroarchitectureDatabase :=
  ⟨[("x86_64", exRootX), ("haswell", exHaswell)], [], [], [], [], true⟩

/-- A height function for `exDbX` (decreases along parent edges). -/
def exRank (s : String) : Nat := if s = "haswell" then 1 else 0

/-- A store with alias and family-implied feature tables. -/
def exDb8 : MicroarchitectureDatabase :=
  ⟨[("x86_64", exRootX), ("haswell", exHaswell)],
   [("avx512", {"avx512f", "avx512vl"})], [("sse2impl", {"x86_64"})], [], [], true⟩

/-- Multi-parent descriptor whose second parent is also the first parent's
parent (duplicate case for ancestors). -/
def exA : Microarchitecture := ⟨"a", ["b", "d"], "generic", ∅, [], 0, ""⟩

/-- Multi-parent descriptor whose first parent has an ancestor of its own
(ordering case for ancestors). -/
def exA2 : Microarchitecture := ⟨"a2", ["b", "c"], "generic", ∅, [], 0, ""⟩

/-- Middle node with one parent. -/
def exB : Microarchitecture := ⟨"b", ["d"], "generic", ∅, [], 0, ""⟩

/-- A root node. -/
def exC : Microarchitecture := ⟨"c", [], "generic", ∅, [], 0, ""⟩

/-- Another root node. -/
def exD : Microarchitecture := ⟨"d", [], "generic", ∅, [], 0, ""⟩

/-- Store exercising the ancestors traversal on multi-parent descriptors. -/
def exDb4 : MicroarchitectureDatabase :=
  ⟨[("a", exA), ("a2", exA2), ("b", exB), ("c", exC), ("d", exD)],
   [], [], [], [], true⟩

/-- The aarch64 family root. -/
def exRootA : Microarchitecture := ⟨"aarch64", [], "generic", ∅, [], 0, ""⟩

/-- An Apple m1_pro descriptor (explicitly mapped, collapsed by the
forward translation). -/
def exM1Pro : Microarchitecture :=
  ⟨"m1_pro", ["aarch64"], "Apple", ∅, [], 0, "0x022"⟩

/-- A store holding only the aarch64 root. -/
def exDbA : MicroarchitectureDatabase :=
  ⟨[("aarch64", exRootA)], [], [], [], [], true⟩

/-- A generic-vendor aarch64 descriptor other than the root. -/
def exArmv81 : Microarchitecture :=
  ⟨"armv8_1a", ["aarch64"], "generic", {"lse"}, [], 0, ""⟩

/-- An Apple m1 descriptor for the aarch64 matcher. -/
def exM1A : Microarchitecture :=
  ⟨"m1", ["aarch64"], "Apple", {"asimd"}, [], 0, "0x023"⟩

/-- An aarch64 store with the root, a generic non-root and a vendor
descriptor. -/
def exDb7 : MicroarchitectureDatabase :=
  ⟨[("aarch64", exRootA), ("armv8_1a", exArmv81), ("m1", exM1A)],
   [], [], [], [], true⟩

/-- An aarch64 signal whose features cover both non-root descriptors. -/
def exInfo7 : DetectedCpuInfo := ⟨"", "Apple", {"lse", "asimd"}, 0, ""⟩

/-- An x86_64 signal covering `exHaswell`. -/
def exInfoX : DetectedCpuInfo :=
  ⟨"", "GenuineIntel", {"sse2", "avx2", "fma"}, 0, ""⟩

/-- A store with one previously-loaded feature alias. -/
def exDb9 : MicroarchitectureDatabase :=
  ⟨[], [("x", {"a"})], [], [], [], true⟩

/-- A document that reassigns the alias "x" and then fails on a non-string
alias element. -/
def exDoc9 : Json :=
  .obj [("feature_aliases",
    .obj [("x", .obj [("any_of", .arr [.str "b"])]),
          ("y", .obj [("any_of", .arr [.num 1])])])]

/-- A ppc64 family root. -/
def exRootP : Microarchitecture := ⟨"ppc64", [], "generic", ∅, [], 0, ""⟩

/-- A ppc64 descriptor whose feature set contains the empty string. -/
def exP9 : Microarchitecture := ⟨"power9", ["ppc64"], "IBM", {""}, [], 9, ""⟩

/-- A ppc64 store. -/
def exDbP : MicroarchitectureDatabase :=
  ⟨[("ppc64", exRootP), ("power9", exP9)], [], [], [], [], true⟩

/-- A root descriptor with a gcc entry open-ended from version 1. -/
def exVTest : Microarchitecture :=
  ⟨"vtest", [], "generic", ∅, [("gcc", [⟨"1:", "", "-march={name}", ""⟩])], 0, ""⟩

/-- A one-entry store for the version-overflow behaviour. -/
def exDbV : MicroarchitectureDatabase :=
  ⟨[("vtest", exVTest)], [], [], [], [], true⟩

/-! ### Association-list and traversal helper lemmas -/

theorem lookup_mem {β : Type} :
    ∀ {l : List (String × β)} {k : String} {v : β},
      l.lookup k = some v → (k, v) ∈ l := by
  intro l
  induction l with
  | nil => intro k v h; simp [List.lookup] at h
  | cons kv rest ih =>
    intro k v h
    obtain ⟨k', b⟩ := kv
    rw [List.lookup] at h
    cases hbeq : (k == k') with
    | true =>
      simp only [hbeq, Option.some.injEq] at h
      exact List.mem_cons.mpr (Or.inl (by rw [eq_of_beq hbeq, h]))
    | false =>
      simp only [hbeq] at h
      exact List.mem_cons.mpr (Or.inr (ih h))

theorem lookup_isSome_mem_keys {β : Type} :
    ∀ {l : List (String × β)} {k : String},
      (l.lookup k).isSome = true → k ∈ l.map Prod.fst := by
  intro l
  induction l with
  | nil => intro k h; simp [List.lookup] at h
  | cons kv rest ih =>
    intro k h
    obtain ⟨k', b⟩ := kv
    rw [List.lookup] at h
    cases hbeq : (k == k') with
    | true => simp [eq_of_beq hbeq]
    | false =>
      simp only [hbeq] at h
      simp only [List.map_cons, List.mem_cons]
      exact Or.inr (ih h)

theorem foldl_max_mem (lt : α → α → Bool) :
    ∀ (xs : List α) (x : α),
      xs.foldl (fun best e => if lt best e then e else best) x ∈ x :: xs := by
  intro xs
  induction xs with
  | nil => intro x; simp
  | cons a as ih =>
    intro x
    rw [List.foldl_cons]
    have h := ih (if lt x a then a else x)
    rcases List.mem_cons.mp h with heq | hmem
    · rw [heq]
      by_cases hlt : lt x a = true <;> simp [hlt]
    · simp [List.mem_cons.mpr (Or.inr hmem)]

theorem maxElement_mem {lt : α → α → Bool} :
    ∀ {l : List α} {x : α}, maxElement lt l = some x → x ∈ l := by
  intro l x h
  cases l with
  | nil => simp [maxElement] at h
  | cons a as =>
    rw [maxElement, Option.some.injEq] at h
    rw [← h]
    exact foldl_max_mem lt as a

theorem mem_mergeUnique :
    ∀ {as r : List String} {x : String},
      x ∈ mergeUnique r as ↔ x ∈ r ∨ x ∈ as := by
  intro as
  induction as with
  | nil => intro r x; simp [mergeUnique]
  | cons a as ih =>
    intro r x
    rw [mergeUnique, List.foldl_cons]
    rw [show ∀ r', as.foldl (fun r a => if a ∈ r then r else r ++ [a]) r' =
        mergeUnique r' as from fun _ => rfl]
    rw [ih]
    by_cases ha : a ∈ r
    · simp only [if_pos ha, List.mem_cons]
      constructor
      · rintro (h | h)
        · exact Or.inl h
        · exact Or.inr (Or.inr h)
      · rintro (h | h | h)
        · exact Or.inl h
        · exact Or.inl (h ▸ ha)
        · exact Or.inr h
    · simp only [if_neg ha, List.mem_append, List.mem_singleton, List.mem_cons]
      tauto

theorem mergeUnique_nodup :
    ∀ {as r : List String}, r.Nodup → (mergeUnique r as).Nodup := by
  intro as
  induction as with
  | nil => intro r h; exact h
  | cons a as ih =>
    intro r h
    rw [mergeUnique, List.foldl_cons]
    rw [show ∀ r', as.foldl (fun r a => if a ∈ r then r else r ++ [a]) r' =
        mergeUnique r' as from fun _ => rfl]
    by_cases ha : a ∈ r
    · rw [if_pos ha]; exact ih h
    · rw [if_neg ha]
      refine ih ?_
      simp [List.nodup_append, h, ha]

theorem mergeUnique_eq_append :
    ∀ (as r : List String), ∃ t, mergeUnique r as = r ++ t := by
  intro as
  induction as with
  | nil => intro r; exact ⟨[], by simp [mergeUnique]⟩
  | cons a as ih =>
    intro r
    rw [mergeUnique, List.foldl_cons]
    rw [show ∀ r', as.foldl (fun r a => if a ∈ r then r else r ++ [a]) r' =
        mergeUnique r' as from fun _ => rfl]
    by_cases ha : a ∈ r
    · rw [if_pos ha]; exact ih r
    · rw [if_neg ha]
      obtain ⟨t, ht⟩ := ih (r ++ [a])
      exact ⟨[a] ++ t, by rw [ht, List.append_assoc]⟩

theorem ancestorsLoop_eq_append (resolve : String → Option (List String)) :
    ∀ (ps r : List String), ∃ t, ancestorsLoop resolve ps r = r ++ t := by
  intro ps
  induction ps with
  | nil => intro r; exact ⟨[], by simp [ancestorsLoop]⟩
  | cons p ps ih =>
    intro r
    rw [ancestorsLoop]
    cases hres : resolve p with
    | some panc =>
      simp only []
      obtain ⟨t0, ht0⟩ := mergeUnique_eq_append panc (r ++ [p])
      obtain ⟨t1, ht1⟩ := ih (mergeUnique (r ++ [p]) panc)
      exact ⟨[p] ++ t0 ++ t1, by rw [ht1, ht0]; simp [List.append_assoc]⟩
    | none =>
      simp only []
      obtain ⟨t, ht⟩ := ih (r ++ [p])
      exact ⟨[p] ++ t, by rw [ht]; simp [List.append_assoc]⟩

theorem mem_ancestorsLoop (resolve : String → Option (List String)) :
    ∀ (ps r : List String) (x : String),
      x ∈ ancestorsLoop resolve ps r ↔
        x ∈ r ∨ ∃ p ∈ ps, x = p ∨ ∃ l, resolve p = some l ∧ x ∈ l := by
  intro ps
  induction ps with
  | nil => intro r x; simp [ancestorsLoop]
  | cons p ps ih =>
    intro r x
    rw [ancestorsLoop]
    have hsplit : ∀ (y : String) (r' : List String), y ∈ r' ++ [p] ↔ y ∈ r' ∨ y = p := by
      intro y r'; simp
    cases hres : resolve p with
    | some panc =>
      simp only []
      rw [ih, mem_mergeUnique, hsplit]
      constructor
      · rintro (((h | h) | h) | ⟨q, hq, hcase⟩)
        · exact Or.inl h
        · exact Or.inr ⟨p, List.mem_cons_self p ps, Or.inl h⟩
        · exact Or.inr ⟨p, List.mem_cons_self p ps, Or.inr ⟨panc, hres, h⟩⟩
        · exact Or.inr ⟨q, List.mem_cons_of_mem p hq, hcase⟩
      · rintro (h | ⟨q, hq, hcase⟩)
        · exact Or.inl (Or.inl (Or.inl h))
        · rcases List.mem_cons.mp hq with rfl | hq'
          · rcases hcase with h | ⟨l, hl, hxl⟩
            · exact Or.inl (Or.inl (Or.inr h))
            · rw [hres] at hl
              injection hl with h2
              exact Or.inl (Or.inr (by rw [h2]; exact hxl))
          · exact Or.inr ⟨q, hq', hcase⟩
    | none =>
      simp only []
      rw [ih, hsplit]
      constructor
      · rintro ((h | h) | ⟨q, hq, hcase⟩)
        · exact Or.inl h
        · exact Or.inr ⟨p, List.mem_cons_self p ps, Or.inl h⟩
        · exact Or.inr ⟨q, List.mem_cons_of_mem p hq, hcase⟩
      · rintro (h | ⟨q, hq, hcase⟩)
        · exact Or.inl (Or.inl h)
        · rcases List.mem_cons.mp hq with rfl | hq'
          · rcases hcase with h | ⟨l, hl, _⟩
            · exact Or.inl (Or.inr h)
            · rw [hres] at hl; cases hl
          · exact Or.inr ⟨q, hq', hcase⟩

theorem mem_ancestorsF {db : MicroarchitectureDatabase} {n : Nat}
    {m : Microarchitecture} {x : String} :
    x ∈ ancestorsF db (n + 1) m ↔
      ∃ p ∈ m.parent_names, x = p ∨
        ∃ mp, db.get p = some mp ∧ x ∈ ancestorsF db n mp := by
  rw [ancestorsF, mem_ancestorsLoop]
  simp only [List.not_mem_nil, false_or, Option.map_eq_some']
  constructor
  · rintro ⟨p, hp, h | ⟨l, ⟨mp, hget, rfl⟩, hxl⟩⟩
    · exact ⟨p, hp, Or.inl h⟩
    · exact ⟨p, hp, Or.inr ⟨mp, hget, hxl⟩⟩
  · rintro ⟨p, hp, h | ⟨mp, hget, hx⟩⟩
    · exact ⟨p, hp, Or.inl h⟩
    · exact ⟨p, hp, Or.inr ⟨_, ⟨mp, hget, rfl⟩, hx⟩⟩

/-! ### C2 -/

/-- C2: for every descriptor `d`, the strict comparison `d < d` is false and
the non-strict comparison `d <= d` is true (the strict order compares the
name-plus-ancestors sets by size first, and the non-strict order starts
from structural equality). -/
theorem C2_lt_irrefl_le_refl :
    ∀ (db : MicroarchitectureDatabase) (d : Microarchitecture),
      d.lt db d = false ∧ d.le db d = true := by
  intro db d
  have hlt : d.lt db d = false := by
    rw [Microarchitecture.lt, if_pos le_rfl]
  refine ⟨hlt, ?_⟩
  rw [Microarchitecture.le, hlt]
  simp [Microarchitecture.eqFields]

/-! ### C8 -/

/-- C8: `has_feature(name)` is true exactly when the name is a direct
feature, an alias whose concrete-feature set meets the descriptor's
features, or a family-implied feature whose implying-family set contains
the resolved family; a name unknown to all three tables yields false for
every descriptor. -/
theorem C8_has_feature_characterization :
    ∀ (db : MicroarchitectureDatabase) (m : Microarchitecture) (f : String),
      (m.has_feature db f = true ↔
        (f ∈ m.features ∨
          (∃ fs, db.feature_aliases.lookup f = some fs ∧ (fs ∩ m.features).Nonempty) ∨
          (∃ fams, db.family_features.lookup f = some fams ∧ m.family db ∈ fams))) ∧
      (f ∉ m.features → db.feature_aliases.lookup f = none →
        db.family_features.lookup f = none → m.has_feature db f = false) := by
  intro db m f
  have hmain : m.has_feature db f = true ↔
      (f ∈ m.features ∨
        (∃ fs, db.feature_aliases.lookup f = some fs ∧ (fs ∩ m.features).Nonempty) ∨
        (∃ fams, db.family_features.lookup f = some fams ∧ m.family db ∈ fams)) := by
    rw [Microarchitecture.has_feature]
    by_cases hf : f ∈ m.features
    · simp [hf]
    · simp only [if_neg hf]
      cases ha : db.feature_aliases.lookup f with
      | some fs =>
        by_cases hne : (fs ∩ m.features).Nonempty
        · simp [hne, hf, ha]
        · cases hb : db.family_features.lookup f with
          | some fams => simp [hne, hf, ha, hb]
          | none => simp [hne, hf, ha, hb]
      | none =>
        cases hb : db.family_features.lookup f with
        | some fams => simp [hf, ha, hb]
        | none => simp [hf, ha, hb]
  refine ⟨hmain, ?_⟩
  intro h1 h2 h3
  rw [Microarchitecture.has_feature, if_neg h1, h2, h3]
  simp

/-! ### C10 -/

/-- C10 counterexample: a ppc64 descriptor whose feature set contains the
empty string.  `map_feature_to_llvm` leaves every feature unchanged for
this family, but `get_llvm_features` still drops the empty string, so it
is not the identity on the feature set. -/
theorem C10_counterexample :
    exP9.family exDbP = "ppc64" ∧
    exP9.family exDbP ∉ (["aarch64", "x86_64", "x86", "riscv64", "riscv32"] : List String) ∧
    get_llvm_features exDbP exP9 ≠ exP9.features := by
  refine ⟨by decide, by decide, by decide⟩

/-- C10 amended: for a family outside the five mapped ones,
`map_feature_to_llvm` returns every feature unchanged, and
`get_llvm_features` is the identity on the feature set of every such
descriptor none of whose features is the empty string (an empty-string
feature is still dropped). -/
theorem C10_unmapped_family_identity :
    (∀ fam feat : String,
        fam ∉ (["aarch64", "x86_64", "x86", "riscv64", "riscv32"] : List String) →
        map_feature_to_llvm fam feat = feat) ∧
    (∀ (db : MicroarchitectureDatabase) (m : Microarchitecture),
        m.family db ∉ (["aarch64", "x86_64", "x86", "riscv64", "riscv32"] : List String) →
        "" ∉ m.features →
        get_llvm_features db m = m.features) := by
  have h1 : ∀ fam feat : String,
      fam ∉ (["aarch64", "x86_64", "x86", "riscv64", "riscv32"] : List String) →
      map_feature_to_llvm fam feat = feat := by
    intro fam feat h
    simp only [List.mem_cons, List.not_mem_nil, or_false, not_or] at h
    obtain ⟨h1, h2, h3, h4, h5⟩ := h
    rw [map_feature_to_llvm, if_neg h1, if_neg (by tauto), if_neg (by tauto)]
  refine ⟨h1, ?_⟩
  intro db m hfam hne
  rw [get_llvm_features]
  have himg : (m.features.image fun feat => map_feature_to_llvm (m.family db) feat) =
      m.features := by
    rw [Finset.image_congr (g := id) (fun x _ => h1 _ x hfam)]
    exact Finset.image_id
  rw [himg]
  rw [Finset.filter_eq_self]
  intro x hx
  intro hempty
  exact hne (hempty ▸ hx)

/-! ### C6 -/

/-- C6 counterexample: `m1_pro` is explicitly mapped (to `apple-m1`), but
the reverse translation returns `m1`, not `m1_pro`, so the round trip does
not recover the original name. -/
theorem C6_counterexample :
    (aarch64_cpu_map.lookup exM1Pro.name).isSome = true ∧
    exM1Pro.family exDbA = "aarch64" ∧
    normalize_cpu_name (exM1Pro.family exDbA) (get_llvm_cpu_name exDbA exM1Pro) ≠
      exM1Pro.name := by
  refine ⟨by decide, by decide, by decide⟩

theorem roundtrip_aux_aarch64 (db : MicroarchitectureDatabase)
    (m : Microarchitecture) (ln : String) (hfam : m.family db = "aarch64")
    (hf : aarch64_cpu_map.lookup m.name = some ln)
    (hr : aarch64_cpu_reverse_map.lookup ln = some m.name) :
    normalize_cpu_name (m.family db) (get_llvm_cpu_name db m) = m.name := by
  have h1 : get_llvm_cpu_name db m = ln := by
    rw [get_llvm_cpu_name, hfam]
    by_cases hv : m.vendor = "Apple" ∨ m.vendor = "apple" <;> simp [hv, hf]
  rw [h1, hfam, normalize_cpu_name]
  simp [hr]

theorem roundtrip_aux_x86 (db : MicroarchitectureDatabase)
    (m : Microarchitecture) (ln : String)
    (hfam : m.family db = "x86_64" ∨ m.family db = "x86")
    (hf : x86_64_cpu_map.lookup m.name = some ln)
    (hr : (x86_64_cpu_reverse_map.lookup ln).getD (hyphensToUnderscores ln) = m.name) :
    normalize_cpu_name (m.family db) (get_llvm_cpu_name db m) = m.name := by
  have hne : m.family db ≠ "aarch64" := by
    rcases hfam with h | h <;> rw [h] <;> decide
  have h1 : get_llvm_cpu_name db m = ln := by
    rw [get_llvm_cpu_name, if_neg hne, if_pos hfam, hf]
  rw [h1, normalize_cpu_name, if_neg hne, if_pos hfam]
  cases hrr : x86_64_cpu_reverse_map.lookup ln with
  | some back => rw [hrr] at hr; simpa using hr
  | none => rw [hrr] at hr; simpa using hr

/-- C6 amended: the round trip
`normalize_cpu_name(family, get_llvm_cpu_name(descriptor))` recovers the
original name for every explicitly-mapped x86_64 entry, and for the
explicitly-mapped aarch64 entries whose LLVM image maps back to them
(the base names m1–m4, a7–a17, thunderx2); the `_pro`/`_max`/`_ultra`
Apple variants and thunderx3 collapse onto a base name and are not
recovered. -/
theorem C6_roundtrip_explicit :
    ∀ (db : MicroarchitectureDatabase) (m : Microarchitecture),
      ((m.family db = "aarch64" ∧ m.name ∈ aarch64RoundtripNames) ∨
        ((m.family db = "x86_64" ∨ m.family db = "x86") ∧
          (x86_64_cpu_map.lookup m.name).isSome = true)) →
      normalize_cpu_name (m.family db) (get_llvm_cpu_name db m) = m.name := by
  intro db m h
  rcases h with ⟨hfam, hmem⟩ | ⟨hfam, hsome⟩
  · have hcases : m.name = "m1" ∨ m.name = "m2" ∨ m.name = "m3" ∨ m.name = "m4" ∨
        m.name = "a7" ∨ m.name = "a8" ∨ m.name = "a9" ∨ m.name = "a10" ∨
        m.name = "a11" ∨ m.name = "a12" ∨ m.name = "a13" ∨ m.name = "a14" ∨
        m.name = "a15" ∨ m.name = "a16" ∨ m.name = "a17" ∨ m.name = "thunderx2" := by
      simpa [aarch64RoundtripNames] using hmem
    rcases hcases with h|h|h|h|h|h|h|h|h|h|h|h|h|h|h|h <;>
      exact roundtrip_aux_aarch64 db m _ hfam (by rw [h]; rfl) (by rw [h]; rfl)
  · have hk := lookup_isSome_mem_keys hsome
    have hcases : m.name = "zen" ∨ m.name = "zen2" ∨ m.name = "zen3" ∨
        m.name = "zen4" ∨ m.name = "icelake" ∨ m.name = "icelake_server" ∨
        m.name = "sapphirerapids" ∨ m.name = "alderlake" ∨ m.name = "meteorlake" := by
      simpa [x86_64_cpu_map] using hk
    rcases hcases with h|h|h|h|h|h|h|h|h <;>
      exact roundtrip_aux_x86 db m _ hfam (by rw [h]; rfl) (by rw [h]; rfl)

/-! ### C7 -/

/-- C7 counterexample: a generic-vendor aarch64-family descriptor other
than the root passes the feature-subset check against the signal, yet the
aarch64 predicate rejects it (its first guard rejects every generic target
not named exactly "aarch64"), and it is not retained by
`compatible_microarchitectures`. -/
theorem C7_counterexample :
    exArmv81.vendor = "generic" ∧
    inFamily exDb7 exArmv81 "aarch64" = true ∧
    exArmv81.features ⊆ exInfo7.features ∧
    check_aarch64 false exDb7 exInfo7 exArmv81 = false ∧
    exArmv81 ∉ compatible_microarchitectures false "aarch64" exDb7 exInfo7 := by
  refine ⟨by decide, by decide, by decide, by decide, by decide⟩

/-- C7 amended: the aarch64 predicate (feature-based variant) rejects every
generic-vendor descriptor not named exactly "aarch64"; a descriptor with a
non-generic vendor equal to the signal's, in the aarch64 family, all of
whose features appear in the signal, is accepted, and every stored
descriptor the predicate accepts is retained by
`compatible_microarchitectures`. -/
theorem C7_aarch64_vendor_check :
    ∀ (db : MicroarchitectureDatabase) (info : DetectedCpuInfo)
      (t : Microarchitecture),
      (t.vendor = "generic" → t.name ≠ "aarch64" →
        check_aarch64 false db info t = false) ∧
      (t.vendor ≠ "generic" → t.vendor = info.vendor →
        inFamily db t "aarch64" = true → t.features ⊆ info.features →
        check_aarch64 false db info t = true) ∧
      (check_aarch64 false db info t = true →
        (∃ k, (k, t) ∈ db.targets) →
        t ∈ compatible_microarchitectures false "aarch64" db info) := by
  intro db info t
  refine ⟨?_, ?_, ?_⟩
  · intro hg hn
    rw [check_aarch64, if_pos ⟨hg, hn⟩]
  · intro hng hv hfam hsub
    rw [check_aarch64, if_neg (by tauto), if_neg (by simpa using hfam),
      if_neg (by tauto)]
    simp [hsub]
  · intro hchk hex
    obtain ⟨k, hk⟩ := hex
    have hmem : t ∈ (db.targets.map Prod.snd).filter (check_aarch64 false db info) := by
      refine List.mem_filter.mpr ⟨?_, hchk⟩
      exact List.mem_map.mpr ⟨(k, t), hk, rfl⟩
    have hne : ((db.targets.map Prod.snd).filter (check_aarch64 false db info)).isEmpty =
        false := by
      cases hl : (db.targets.map Prod.snd).filter (check_aarch64 false db info) with
      | nil => rw [hl] at hmem; cases hmem
      | cons a as => simp [hl]
    simp only [compatible_microarchitectures]
    rw [if_neg (by decide)]
    simp only [if_true, hne, Bool.false_eq_true, if_false]
    exact hmem

/-! ### C4 -/

/-- C4 counterexample: with parents `["b","d"]` where `d` is also `b`'s
parent, `ancestors()` yields `["b","d","d"]` — a duplicate — and with
parents `["b","c"]` it yields `["b","d","c"]`, where the non-parent
grand-ancestor `d` precedes the direct parent `c`. -/
theorem C4_counterexample :
    (exA.ancestors exDb4 = ["b", "d", "d"] ∧ ¬ (exA.ancestors exDb4).Nodup) ∧
    (exA2.ancestors exDb4 = ["b", "d", "c"] ∧ "c" ∈ exA2.parent_names ∧
      "d" ∉ exA2.parent_names) := by
  refine ⟨⟨by decide, by decide⟩, ⟨by decide, by decide, by decide⟩⟩

theorem ancestorsLoop_nodup (resolve : String → Option (List String)) :
    ∀ (ps r : List String),
      r.Nodup → (∀ p ∈ ps, p ∉ r) → ps.Nodup →
      (∀ p ∈ ps, ∀ q ∈ ps, p ≠ q → ∀ l, resolve q = some l → p ∉ l) →
      (ancestorsLoop resolve ps r).Nodup := by
  intro ps
  induction ps with
  | nil => intro r hr _ _ _; exact hr
  | cons p ps ih =>
    intro r hr hout hnodup hcross
    rw [ancestorsLoop]
    have hpr : p ∉ r := hout p (List.mem_cons_self p ps)
    have hr1 : (r ++ [p]).Nodup := by simp [List.nodup_append, hr, hpr]
    have hps : ps.Nodup := (List.nodup_cons.mp hnodup).2
    have hpps : p ∉ ps := (List.nodup_cons.mp hnodup).1
    cases hres : resolve p with
    | some panc =>
      simp only []
      refine ih (mergeUnique (r ++ [p]) panc) (mergeUnique_nodup hr1) ?_ hps ?_
      · intro q hq hmem
        rcases mem_mergeUnique.mp hmem with hmemr | hmemp
        · rcases (List.mem_append.mp hmemr) with h | h
          · exact hout q (List.mem_cons_of_mem p hq) h
          · exact hpps ((show q = p by simpa using h) ▸ hq)
        · exact hcross q (List.mem_cons_of_mem p hq) p (List.mem_cons_self p ps)
            (fun hqp => hpps (hqp ▸ hq)) panc hres hmemp
      · intro a ha b hb hab l hl
        exact hcross a (List.mem_cons_of_mem p ha) b (List.mem_cons_of_mem p hb) hab l hl
    | none =>
      simp only []
      refine ih (r ++ [p]) hr1 ?_ hps ?_
      · intro q hq hmem
        rcases List.mem_append.mp hmem with h | h
        · exact hout q (List.mem_cons_of_mem p hq) h
        · exact hpps ((show q = p by simpa using h) ▸ hq)
      · intro a ha b hb hab l hl
        exact hcross a (List.mem_cons_of_mem p ha) b (List.mem_cons_of_mem p hb) hab l hl

/-- C4 amended: `ancestors()` is empty exactly for descriptors with no
parents; every direct parent appears in the result, and when the parent
list is non-empty the first parent heads the result; each direct parent is
emitted at its turn (even when already listed), immediately followed by
its own not-yet-listed ancestors, so the result is duplicate-free provided
the direct parents are pairwise distinct and no direct parent occurs among
another parent's recursively-resolved ancestors. -/
theorem C4_ancestors_shape :
    ∀ (db : MicroarchitectureDatabase) (m : Microarchitecture),
      (m.parent_names = [] ↔ m.ancestors db = []) ∧
      (∀ p ∈ m.parent_names, p ∈ m.ancestors db) ∧
      (∀ p ps', m.parent_names = p :: ps' → ∃ t, m.ancestors db = p :: t) ∧
      (m.parent_names.Nodup →
        (∀ p ∈ m.parent_names, ∀ q ∈ m.parent_names, p ≠ q →
          ∀ mq, db.get q = some mq → p ∉ ancestorsF db db.targets.length mq) →
        (m.ancestors db).Nodup) := by
  intro db m
  have hanc : m.ancestors db =
      ancestorsLoop (fun p => (db.get p).map
        (fun parent => ancestorsF db db.targets.length parent)) m.parent_names [] := by
    rw [Microarchitecture.ancestors, dbFuel, ancestorsF]
  refine ⟨?_, ?_, ?_, ?_⟩
  · constructor
    · intro h
      rw [hanc, h, ancestorsLoop]
    · intro h
      by_contra hne
      cases hp : m.parent_names with
      | nil => exact hne hp
      | cons p ps =>
        have : p ∈ m.ancestors db := by
          rw [hanc, mem_ancestorsLoop]
          exact Or.inr ⟨p, hp ▸ List.mem_cons_self p ps, Or.inl rfl⟩
        rw [h] at this
        cases this
  · intro p hp
    rw [hanc, mem_ancestorsLoop]
    exact Or.inr ⟨p, hp, Or.inl rfl⟩
  · intro p ps' hp
    rw [hanc, hp, ancestorsLoop]
    cases hres : (db.get p).map (fun parent => ancestorsF db db.targets.length parent) with
    | some panc =>
      simp only []
      obtain ⟨t0, ht0⟩ := mergeUnique_eq_append panc ([] ++ [p])
      obtain ⟨t1, ht1⟩ := ancestorsLoop_eq_append _ ps' (mergeUnique ([] ++ [p]) panc)
      exact ⟨t0 ++ t1, by rw [ht1, ht0]; simp⟩
    | none =>
      simp only []
      obtain ⟨t, ht⟩ := ancestorsLoop_eq_append _ ps' ([] ++ [p])
      exact ⟨t, by rw [ht]; simp⟩
  · intro hnodup hcross
    rw [hanc]
    refine ancestorsLoop_nodup _ m.parent_names [] (by simp) (by simp) hnodup ?_
    intro a ha b hb hab l hl
    rcases Option.map_eq_some'.mp hl with ⟨mq, hget, rfl⟩
    exact hcross a ha b hb hab mq hget

/-! ### C3: ancestors and the strict order -/

theorem ancestorsF_mono {db : MicroarchitectureDatabase} :
    ∀ {n k : Nat} {m : Microarchitecture} {x : String},
      n ≤ k → x ∈ ancestorsF db n m → x ∈ ancestorsF db k m := by
  intro n
  induction n with
  | zero => intro k m x _ h; simp [ancestorsF, ancestorsLoop] at h
  | succ n ih =>
    intro k m x hnk h
    cases k with
    | zero => omega
    | succ k =>
      rcases mem_ancestorsF.mp h with ⟨p, hp, hcase | ⟨mp, hget, hmem⟩⟩
      · exact mem_ancestorsF.mpr ⟨p, hp, Or.inl hcase⟩
      · exact mem_ancestorsF.mpr
          ⟨p, hp, Or.inr ⟨mp, hget, ih (by omega) hmem⟩⟩

theorem ancestorsF_trans {db : MicroarchitectureDatabase} :
    ∀ {n : Nat} {b : Microarchitecture} {x : String} {mx : Microarchitecture}
      {fm : Nat} {y : String},
      x ∈ ancestorsF db n b → db.get x = some mx →
      y ∈ ancestorsF db fm mx → y ∈ ancestorsF db (n + fm) b := by
  intro n
  induction n with
  | zero => intro b x mx fm y h; simp [ancestorsF, ancestorsLoop] at h
  | succ n ih =>
    intro b x mx fm y hx hget hy
    have harith : n + 1 + fm = (n + fm) + 1 := by omega
    rw [harith]
    rcases mem_ancestorsF.mp hx with ⟨p, hp, hcase | ⟨mp, hgetp, hmem⟩⟩
    · exact mem_ancestorsF.mpr
        ⟨p, hp, Or.inr ⟨mx, hcase ▸ hget, ancestorsF_mono (by omega) hy⟩⟩
    · exact mem_ancestorsF.mpr
        ⟨p, hp, Or.inr ⟨mp, hgetp, ih hmem hget hy⟩⟩

theorem ancestorsF_rank_lt {db : MicroarchitectureDatabase} {rank : String → Nat}
    (hr : ∀ p mp q, db.get p = some mp → q ∈ mp.parent_names → rank q < rank p) :
    ∀ {n : Nat} {m : Microarchitecture} {R : Nat},
      (∀ p ∈ m.parent_names, rank p < R) →
      ∀ {x : String}, x ∈ ancestorsF db n m → rank x < R := by
  intro n
  induction n with
  | zero => intro m R _ x h; simp [ancestorsF, ancestorsLoop] at h
  | succ n ih =>
    intro m R hR x h
    rcases mem_ancestorsF.mp h with ⟨p, hp, hcase | ⟨mp, hget, hmem⟩⟩
    · exact hcase ▸ hR p hp
    · have hmp : ∀ q ∈ mp.parent_names, rank q < rank p := fun q hq => hr p mp q hget hq
      exact lt_trans (ih hmp hmem) (hR p hp)

theorem ancestorsF_stable {db : MicroarchitectureDatabase} {rank : String → Nat}
    (hr : ∀ p mp q, db.get p = some mp → q ∈ mp.parent_names → rank q < rank p) :
    ∀ (R : Nat) (m : Microarchitecture),
      (∀ p ∈ m.parent_names, rank p < R) →
      ∀ {n₁ n₂ : Nat} {x : String}, R ≤ n₁ → R ≤ n₂ →
        x ∈ ancestorsF db n₁ m → x ∈ ancestorsF db n₂ m := by
  intro R
  induction R using Nat.strong_induction_on with
  | _ R ih =>
    intro m hR n₁ n₂ x h1 h2 hx
    cases n₁ with
    | zero => simp [ancestorsF, ancestorsLoop] at hx
    | succ n₁ =>
      rcases mem_ancestorsF.mp hx with ⟨p, hp, hcase | ⟨mp, hget, hmem⟩⟩
      · cases n₂ with
        | zero =>
          have := hR p hp
          omega
        | succ n₂ => exact mem_ancestorsF.mpr ⟨p, hp, Or.inl hcase⟩
      · have hrp : rank p < R := hR p hp
        cases n₂ with
        | zero => omega
        | succ n₂ =>
          have hmp : ∀ q ∈ mp.parent_names, rank q < rank p :=
            fun q hq => hr p mp q hget hq
          have hstep : x ∈ ancestorsF db n₂ mp :=
            ih (rank p) hrp mp hmp (by omega) (by omega) hmem
          exact mem_ancestorsF.mpr ⟨p, hp, Or.inr ⟨mp, hget, hstep⟩⟩

/-- C3: for descriptors `a` and `b` in a store whose parent graph is
acyclic (witnessed by a height function that decreases along parent edges
and is bounded by the store size), if `a`'s name occurs among `b`'s
ancestors then `a < b`: the name-plus-ancestors set of `a` is a proper
subset of that of `b`. -/
theorem C3_ancestor_implies_lt :
    ∀ (db : MicroarchitectureDatabase) (rank : String → Nat)
      (a b : Microarchitecture),
      (∀ s, rank s ≤ db.targets.length) →
      (∀ p mp q, db.get p = some mp → q ∈ mp.parent_names → rank q < rank p) →
      db.get a.name = some a → db.get b.name = some b →
      a.name ∈ b.ancestors db →
      a.lt db b = true := by
  intro db rank a b hbound hr hga hgb hmem
  have hRb : ∀ p ∈ b.parent_names, rank p < rank b.name :=
    fun q hq => hr b.name b q hgb hq
  have hRa : ∀ p ∈ a.parent_names, rank p < rank a.name :=
    fun q hq => hr a.name a q hga hq
  rw [Microarchitecture.ancestors] at hmem
  have hrank_ab : rank a.name < rank b.name :=
    ancestorsF_rank_lt hr hRb hmem
  -- subset of the name-plus-ancestors sets
  have hsub : a.to_set db ⊆ b.to_set db := by
    intro x hx
    rw [Microarchitecture.to_set, Finset.mem_insert, List.mem_toFinset] at hx
    rcases hx with rfl | hx
    · rw [Microarchitecture.to_set, Finset.mem_insert, List.mem_toFinset,
        Microarchitecture.ancestors]
      exact Or.inr hmem
    · rw [Microarchitecture.ancestors] at hx
      have hbig : x ∈ ancestorsF db (dbFuel db + dbFuel db) b :=
        ancestorsF_trans hmem hga hx
      have hsmall : x ∈ ancestorsF db (dbFuel db) b := by
        refine ancestorsF_stable hr (rank b.name) b hRb ?_ ?_ hbig
        · have := hbound b.name; rw [dbFuel]; omega
        · have := hbound b.name; rw [dbFuel]; omega
      rw [Microarchitecture.to_set, Finset.mem_insert, List.mem_toFinset,
        Microarchitecture.ancestors]
      exact Or.inr hsmall
  -- b's name separates the two sets
  have hnotin : b.name ∉ a.to_set db := by
    rw [Microarchitecture.to_set, Finset.mem_insert, List.mem_toFinset]
    rintro (heq | hb)
    · rw [heq] at hrank_ab
      omega
    · rw [Microarchitecture.ancestors] at hb
      have := ancestorsF_rank_lt hr hRa hb
      omega
  have hss : a.to_set db ⊂ b.to_set db :=
    (Finset.ssubset_iff_of_subset hsub).mpr
      ⟨b.name,
       by rw [Microarchitecture.to_set]; exact Finset.mem_insert_self _ _,
       hnotin⟩
  have hcard : (a.to_set db).card < (b.to_set db).card := Finset.card_lt_card hss
  rw [Microarchitecture.lt, if_neg (by omega)]
  exact decide_eq_true hsub

/-! ### C1: host always yields a usable descriptor -/

theorem fallback_mem {db : MicroarchitectureDatabase} {arch : String}
    {y : Microarchitecture} :
    y ∈ (match db.get arch with
          | some g => [g]
          | none => ([] : List Microarchitecture)) →
    ∃ k, (k, y) ∈ db.targets := by
  intro hm
  cases ho : db.get arch with
  | some g =>
    rw [ho] at hm
    have hy : y = g := by simpa using hm
    refine ⟨arch, lookup_mem ?_⟩
    show db.targets.lookup arch = some y
    rw [show db.targets.lookup arch = db.get arch from rfl, ho, hy]
  | none => rw [ho] at hm; cases hm

theorem checker_branch_mem {db : MicroarchitectureDatabase} {arch : String}
    {y : Microarchitecture} (checker : Microarchitecture → Bool) :
    y ∈ (let result := (db.targets.map Prod.snd).filter checker
         if result.isEmpty then
           (match db.get arch with
             | some g => [g]
             | none => ([] : List Microarchitecture))
         else result) →
    ∃ k, (k, y) ∈ db.targets := by
  intro h
  simp only [] at h
  by_cases he : ((db.targets.map Prod.snd).filter checker).isEmpty = true
  · rw [if_pos he] at h
    exact fallback_mem h
  · rw [if_neg he] at h
    obtain ⟨hmem, _⟩ := List.mem_filter.mp h
    obtain ⟨⟨k, m⟩, hkv, rfl⟩ := List.mem_map.mp hmem
    exact ⟨k, hkv⟩

theorem compatible_mem {apple : Bool} {arch : String}
    {db : MicroarchitectureDatabase} {info : DetectedCpuInfo}
    {y : Microarchitecture} :
    y ∈ compatible_microarchitectures apple arch db info →
    ∃ k, (k, y) ∈ db.targets := by
  intro h
  rw [compatible_microarchitectures] at h
  by_cases h1 : arch = "x86_64" ∨ arch = "i686" ∨ arch = "i386"
  · rw [if_pos h1] at h
    exact checker_branch_mem _ h
  · rw [if_neg h1] at h
    by_cases h2 : arch = "aarch64"
    · rw [if_pos h2] at h
      exact checker_branch_mem _ h
    · rw [if_neg h2] at h
      by_cases h3 : arch = "ppc64" ∨ arch = "ppc64le"
      · rw [if_pos h3] at h
        exact checker_branch_mem _ h
      · rw [if_neg h3] at h
        by_cases h4 : arch = "riscv64"
        · rw [if_pos h4] at h
          exact checker_branch_mem _ h
        · rw [if_neg h4] at h
          exact fallback_mem h

theorem host_mem_or (apple : Bool) (arch : String)
    (db : MicroarchitectureDatabase) (info : DetectedCpuInfo) :
    (∃ k, (k, host apple arch db info) ∈ db.targets) ∨
    host apple arch db info = generic_microarchitecture arch := by
  unfold host
  set cands := compatible_microarchitectures apple arch db info with hcands
  by_cases h0 : cands.isEmpty = true
  · rw [if_pos h0]
    exact Or.inr rfl
  · rw [if_neg h0]
    simp only []
    set gc := cands.filter (fun c => c.vendor = "generic") with hgc
    set bg := maxElement (sortingLt db) gc with hbg
    set c1 := (if info.cpu_part ≠ "" then
        if (cands.filter fun c => c.cpu_part = info.cpu_part).isEmpty then cands
        else cands.filter fun c => c.cpu_part = info.cpu_part
      else cands) with hc1
    set c2 := (match bg with
      | some b =>
        if (c1.filter fun c : Microarchitecture => c.gt db b).isEmpty then c1
        else c1.filter fun c : Microarchitecture => c.gt db b
      | none => c1) with hc2
    have hc1sub : c1 ⊆ cands := by
      rw [hc1]
      split
      · split
        · exact fun _ h => h
        · exact fun _ h => List.mem_of_mem_filter h
      · exact fun _ h => h
    have hc2sub : c2 ⊆ cands := by
      rw [hc2]
      cases bg with
      | some b =>
        simp only []
        split
        · exact hc1sub
        · exact fun _ h => hc1sub (List.mem_of_mem_filter h)
      | none => exact hc1sub
    have hbgmem : ∀ b, bg = some b → b ∈ cands := by
      intro b hb
      rw [hbg] at hb
      exact List.mem_of_mem_filter (maxElement_mem hb)
    by_cases h2 : c2.isEmpty = true
    · rw [if_pos h2]
      cases hb : bg with
      | some b =>
        exact Or.inl (compatible_mem (hbgmem b hb))
      | none => exact Or.inr rfl
    · rw [if_neg h2]
      cases hm : maxElement (sortingLt db) c2 with
      | some best =>
        exact Or.inl (compatible_mem (hc2sub (maxElement_mem hm)))
      | none => exact Or.inr rfl

/-- C1: `host` never fails: when `compatible_microarchitectures` yields no
candidate (its own fallback included), `host` returns a freshly
constructed generic descriptor for the architecture — vendor "generic",
no features, no parents, named after the architecture — and in every case
the returned descriptor has a non-empty name, provided the architecture
string is non-empty and the store holds only validly-named descriptors. -/
theorem C1_host_usable :
    ∀ (apple : Bool) (arch : String) (db : MicroarchitectureDatabase)
      (info : DetectedCpuInfo),
      (compatible_microarchitectures apple arch db info = [] →
        host apple arch db info = generic_microarchitecture arch ∧
        (host apple arch db info).vendor = "generic" ∧
        (host apple arch db info).features = ∅ ∧
        (host apple arch db info).parent_names = [] ∧
        (host apple arch db info).name = arch) ∧
      (arch ≠ "" → (∀ kv ∈ db.targets, (kv : String × Microarchitecture).2.name ≠ "") →
        (host apple arch db info).name ≠ "") := by
  intro apple arch db info
  constructor
  · intro hempt
    have hh : host apple arch db info = generic_microarchitecture arch := by
      rw [host]
      rw [if_pos (by rw [hempt]; rfl)]
    refine ⟨hh, ?_, ?_, ?_, ?_⟩ <;> rw [hh]
    · rfl
    · show (mkMicroarchitecture arch [] "generic" ∅ [] 0 "").features = ∅
      rw [mkMicroarchitecture]
      simp
    · rfl
    · rfl
  · intro harch hvalid
    rcases host_mem_or apple arch db info with ⟨k, hk⟩ | hgen
    · exact hvalid (k, host apple arch db info) hk
    · rw [hgen]
      exact harch

/-! ### C5: optimization_flags refines the spec's description -/

theorem takeWhile_eq_self {p : Char → Bool} :
    ∀ {l : List Char}, (∀ c ∈ l, p c = true) → l.takeWhile p = l := by
  intro l
  induction l with
  | nil => intro _; rfl
  | cons c rest ih =>
    intro h
    rw [List.takeWhile_cons, h c (List.mem_cons_self c rest), if_pos rfl,
      ih fun x hx => h x (List.mem_cons_of_mem c hx)]

theorem digit_not_special {c : Char} (h : c.isDigit = true) :
    c ≠ '-' ∧ c ≠ '+' ∧ ¬(c = ' ' ∨ c = '\t' ∨ c = '\n' ∨ c = '\r') := by
  refine ⟨?_, ?_, ?_⟩
  · intro hc; rw [hc] at h; exact absurd h (by decide)
  · intro hc; rw [hc] at h; exact absurd h (by decide)
  · rintro (hc | hc | hc | hc) <;> rw [hc] at h <;> exact absurd h (by decide)

theorem stoiParse_digits :
    ∀ {ds : List Char}, ds ≠ [] → ds.all Char.isDigit = true →
      natOfDigits ds ≤ 2147483647 →
      stoiParse ds = some ((natOfDigits ds : Int)) := by
  intro ds hne hall hbound
  cases ds with
  | nil => exact absurd rfl hne
  | cons c rest =>
    have hc : c.isDigit = true := by
      have := List.all_eq_true.mp hall c (List.mem_cons_self c rest)
      simpa using this
    obtain ⟨hm, hp, hws⟩ := digit_not_special hc
    rw [stoiParse]
    rw [List.dropWhile_cons]
    rw [if_neg (by simpa using hws)]
    simp only []
    rw [if_neg hm, if_neg hp]
    have htake : (c :: rest).takeWhile Char.isDigit = c :: rest :=
      takeWhile_eq_self fun x hx => by
        simpa using List.all_eq_true.mp hall x hx
    rw [htake, if_neg (by simp), if_neg (by omega)]

theorem parse_version_wf {s : String} (h : wellFormedVer s = true) :
    parse_version s = specTuple s := by
  rw [parse_version, specTuple]
  have hparts := List.all_eq_true.mp h
  generalize splitDots s.data [] = parts at hparts ⊢
  induction parts with
  | nil => rfl
  | cons p ps ih =>
    have hp := hparts p (List.mem_cons_self p ps)
    simp only [decide_eq_true_eq] at hp
    rw [List.filterMap_cons, List.map_cons]
    rw [if_neg hp.1, stoiParse_digits hp.1 hp.2.1 hp.2.2]
    rw [ih fun x hx => hparts x (List.mem_cons_of_mem p hx)]

theorem compareZeros_eq_neg :
    ∀ bs : List Int, compareZeros bs = -compare_versions bs [] := by
  intro bs
  induction bs with
  | nil => simp [compareZeros, compare_versions]
  | cons b bs ih =>
    rw [compareZeros, compare_versions]
    split_ifs <;> omega

theorem compare_versions_swap :
    ∀ (a b : List Int), compare_versions a b = -compare_versions b a := by
  intro a
  induction a with
  | nil =>
    intro b
    show compareZeros b = -compare_versions b []
    exact compareZeros_eq_neg b
  | cons x xs ih =>
    intro b
    cases b with
    | nil =>
      have h := compareZeros_eq_neg (x :: xs)
      show compare_versions (x :: xs) [] = -compareZeros (x :: xs)
      omega
    | cons y ys =>
      rw [compare_versions, compare_versions]
      split_ifs <;> first | omega | exact ih ys

theorem verLeZeros_iff :
    ∀ bs : List Int, verLeZeros bs = true ↔ 0 ≤ compare_versions bs [] := by
  intro bs
  induction bs with
  | nil => simp [verLeZeros, compare_versions, compareZeros]
  | cons b bs ih =>
    rw [verLeZeros, compare_versions]
    split_ifs <;> first | decide | exact ih | (exfalso; omega)

theorem verLe_nil_iff :
    ∀ as : List Int, verLe as [] = true ↔ 0 ≤ compareZeros as := by
  intro as
  induction as with
  | nil => simp [verLe, verLeZeros, compareZeros]
  | cons a as ih =>
    rw [verLe, compareZeros]
    split_ifs <;> first | decide | exact ih | (exfalso; omega)

theorem verLe_iff_compare :
    ∀ (a b : List Int), verLe a b = true ↔ 0 ≤ compare_versions b a := by
  intro a
  induction a with
  | nil =>
    intro b
    show verLeZeros b = true ↔ 0 ≤ compare_versions b []
    exact verLeZeros_iff b
  | cons x xs ih =>
    intro b
    cases b with
    | nil =>
      show verLe (x :: xs) [] = true ↔ 0 ≤ compareZeros (x :: xs)
      exact verLe_nil_iff (x :: xs)
    | cons y ys =>
      rw [verLe, compare_versions]
      split_ifs <;> first | decide | exact ih ys | (exfalso; omega)

theorem satisfies_version_eq_spec {c v : String}
    (hc : wellFormedConstraint c = true) (hv : wellFormedVer v = true) :
    satisfies_version c v = specSatisfiesVersion c v := by
  rw [satisfies_version, specSatisfiesVersion]
  by_cases hcol : ':' ∈ c.data
  · rw [if_neg (not_not_intro hcol), if_neg (not_not_intro hcol)]
    rw [wellFormedConstraint] at hc
    rw [if_neg (not_not_intro hcol)] at hc
    simp only [decide_eq_true_eq] at hc
    obtain ⟨hcmin, hcmax⟩ := hc
    set minS := c.data.takeWhile (· ≠ ':') with hminS
    set maxS := (c.data.dropWhile (· ≠ ':')).drop 1 with hmaxS
    rw [parse_version_wf hv]
    by_cases h1 : minS ≠ [] ∧
        compare_versions (specTuple v) (parse_version (String.mk minS)) < 0
    · rw [if_pos h1]
      have hwfmin : wellFormedVer (String.mk minS) = true := by
        rcases hcmin with h | h
        · exact absurd h h1.1
        · exact h
      rw [parse_version_wf hwfmin] at h1
      symm
      rw [decide_eq_false_iff_not]
      rintro ⟨hmin, _⟩
      rcases hmin with h | h
      · exact h1.1 h
      · rw [verLe_iff_compare] at h
        omega
    · rw [if_neg h1]
      by_cases h2 : maxS ≠ [] ∧
          compare_versions (specTuple v) (parse_version (String.mk maxS)) > 0
      · rw [if_pos h2]
        have hwfmax : wellFormedVer (String.mk maxS) = true := by
          rcases hcmax with h | h
          · exact absurd h h2.1
          · exact h
        rw [parse_version_wf hwfmax] at h2
        symm
        rw [decide_eq_false_iff_not]
        rintro ⟨_, hmax⟩
        rcases hmax with h | h
        · exact h2.1 h
        · rw [verLe_iff_compare, compare_versions_swap] at h
          omega
      · rw [if_neg h2]
        symm
        rw [decide_eq_true_eq]
        constructor
        · by_cases hm : minS = []
          · exact Or.inl hm
          · right
            have hwfmin : wellFormedVer (String.mk minS) = true := by
              rcases hcmin with h | h
              · exact absurd h hm
              · exact h
            rw [verLe_iff_compare]
            rw [parse_version_wf hwfmin] at h1
            by_contra hlt
            exact h1 ⟨hm, by omega⟩
        · by_cases hm : maxS = []
          · exact Or.inl hm
          · right
            have hwfmax : wellFormedVer (String.mk maxS) = true := by
              rcases hcmax with h | h
              · exact absurd h hm
              · exact h
            rw [verLe_iff_compare, compare_versions_swap]
            rw [parse_version_wf hwfmax] at h2
            by_contra hgt
            exact h2 ⟨hm, by omega⟩
  · rw [if_pos hcol, if_pos hcol]

theorem findq_congr {α : Type} {p q : α → Bool} :
    ∀ {l : List α}, (∀ a ∈ l, p a = q a) → l.find? p = l.find? q := by
  intro l
  induction l with
  | nil => intro _; rfl
  | cons a as ih =>
    intro h
    rw [List.find?_cons, List.find?_cons, ← h a (List.mem_cons_self a as)]
    cases hp : p a with
    | true => rfl
    | false => exact ih fun x hx => h x (List.mem_cons_of_mem a hx)

theorem findSomeq_congr {α β : Type} {f g : α → Option β} :
    ∀ {l : List α}, (∀ a ∈ l, f a = g a) → l.findSome? f = l.findSome? g := by
  intro l
  induction l with
  | nil => intro _; rfl
  | cons a as ih =>
    intro h
    rw [List.findSome?_cons, List.findSome?_cons, ← h a (List.mem_cons_self a as)]
    cases f a with
    | some b => rfl
    | none => exact ih fun x hx => h x (List.mem_cons_of_mem a hx)

theorem flagsFallbackLoop_eq_findSome (f : String → Option String) :
    ∀ (l : List String),
      flagsFallbackLoop f l =
        (l.findSome? fun an => (f an).bind fun r =>
          if r = "" then none else some r).getD "" := by
  intro l
  induction l with
  | nil => rfl
  | cons an rest ih =>
    rw [flagsFallbackLoop, List.findSome?_cons]
    cases hf : f an with
    | some r =>
      by_cases hr : r = ""
      · simp [hr, ih]
      · simp [hr]
    | none => simp [ih]

theorem wellFormedMicro_entries {m : Microarchitecture} {compiler : String}
    {entries : List CompilerEntry} (hm : wellFormedMicro m = true)
    (hlk : m.compilers.lookup compiler = some entries) :
    ∀ e ∈ entries, wellFormedConstraint e.versions = true := by
  intro e he
  have hmem := lookup_mem hlk
  have h1 := List.all_eq_true.mp hm _ hmem
  simp only [decide_eq_true_eq] at h1 ⊢
  have := List.all_eq_true.mp h1 e he
  simpa using this

theorem wellFormedDb_get {db : MicroarchitectureDatabase} {an : String}
    {anc : Microarchitecture} (hdb : wellFormedDb db = true)
    (hget : db.get an = some anc) : wellFormedMicro anc = true := by
  have hmem := lookup_mem hget
  have := List.all_eq_true.mp hdb _ hmem
  simpa using this

/-- C5 counterexample: at version "9999999999" the source's `std::stoi`
throws `out_of_range` (the component exceeds INT_MAX), the component is
skipped and the parsed tuple is empty, so the open-ended constraint "1:"
is not satisfied and no flags are returned — while the claim's plain
tuple semantics satisfies the constraint and returns the formatted
flags. -/
theorem C5_counterexample :
    optimization_flagsF exDbV 2 exVTest "gcc" "9999999999" = "" ∧
    optimizationFlagsSpecF exDbV 2 exVTest "gcc" "9999999999" = "-march=vtest" ∧
    satisfies_version "1:" "9999999999" = false ∧
    specSatisfiesVersion "1:" "9999999999" = true := by
  refine ⟨by decide, by decide, by decide, by decide⟩

/-- C5 amended: `optimization_flags` implements the specification's
description — first satisfied version-range entry in declared order under
the MIN:MAX tuple semantics, `{name}` substitution with the override or
the descriptor's own name, ancestor fallback in ancestor order returning
the first non-empty result, and empty otherwise — for every store,
descriptor and version whose dotted components are digit runs fitting a
32-bit signed int, at every recursion fuel; a component beyond INT_MAX is
skipped by the source's parser (`std::stoi` throws, the catch ignores the
component) and the tuple semantics no longer applies to it. -/
theorem C5_optimization_flags_matches_spec :
    ∀ (db : MicroarchitectureDatabase) (fuel : Nat) (m : Microarchitecture)
      (compiler version : String),
      wellFormedDb db = true → wellFormedMicro m = true →
      wellFormedVer version = true →
      optimization_flagsF db fuel m compiler version =
        optimizationFlagsSpecF db fuel m compiler version := by
  intro db fuel
  induction fuel with
  | zero => intro m compiler version _ _ _; rfl
  | succ fuel ih =>
    intro m compiler version hdb hm hv
    rw [optimization_flagsF, optimizationFlagsSpecF]
    have hfallback :
        flagsFallbackLoop
          (fun an => (db.get an).map fun anc =>
            optimization_flagsF db fuel anc compiler version)
          (m.ancestors db) =
        ((m.ancestors db).findSome? fun an =>
          (db.get an).bind fun anc =>
            let r := optimizationFlagsSpecF db fuel anc compiler version
            if r = "" then none else some r).getD "" := by
      rw [flagsFallbackLoop_eq_findSome]
      congr 1
      apply findSomeq_congr
      intro an _
      cases hget : db.get an with
      | none => rfl
      | some anc =>
        show (if optimization_flagsF db fuel anc compiler version = "" then none
              else some (optimization_flagsF db fuel anc compiler version)) =
            (if optimizationFlagsSpecF db fuel anc compiler version = "" then none
              else some (optimizationFlagsSpecF db fuel anc compiler version))
        rw [ih anc compiler version hdb (wellFormedDb_get hdb hget) hv]
    cases hlk : m.compilers.lookup compiler with
    | none =>
      simp only []
      exact hfallback
    | some entries =>
      simp only []
      have hfind : entries.find? (fun e => satisfies_version e.versions version) =
          entries.find? (fun e => specSatisfiesVersion e.versions version) := by
        apply findq_congr
        intro e he
        exact satisfies_version_eq_spec
          (wellFormedMicro_entries hm hlk e he) hv
      cases hentries : entries with
      | nil =>
        simp only [List.isEmpty_nil, if_true, List.find?_nil]
        exact hfallback
      | cons e0 es =>
        rw [← hentries]
        rw [show entries.isEmpty = false by rw [hentries]; rfl]
        simp only [Bool.false_eq_true, if_false]
        rw [hfind]
        cases hf : entries.find? (fun e => specSatisfiesVersion e.versions version) with
        | some e => rfl
        | none =>
          simp only []
          exact hfallback

/-! ### C9: ingestion keeps the target table additive -/

theorem lookup_append_left {β : Type} :
    ∀ {l : List (String × β)} {n : String} {v : β} (l2 : List (String × β)),
      l.lookup n = some v → (l ++ l2).lookup n = some v := by
  intro l
  induction l with
  | nil => intro n v l2 h; simp [List.lookup] at h
  | cons kv rest ih =>
    intro n v l2 h
    obtain ⟨k, b⟩ := kv
    show List.lookup n ((k, b) :: (rest ++ l2)) = some v
    rw [List.lookup] at h ⊢
    cases hbeq : (n == k) with
    | true => simp only [hbeq] at h ⊢; exact h
    | false => simp only [hbeq] at h ⊢; exact ih l2 h

theorem fillTarget_existing {targets : List (String × Microarchitecture)}
    {name : String} (data : Json) (h : (targets.lookup name).isSome = true) :
    fillTarget targets name data = some targets := by
  rw [fillTarget, if_pos h]

theorem fillTarget_shape {targets : List (String × Microarchitecture)}
    {name : String} {data : Json} {t' : List (String × Microarchitecture)}
    (h : fillTarget targets name data = some t') :
    t' = targets ∨ ∃ e, t' = targets ++ [e] := by
  rw [fillTarget] at h
  by_cases hex : (targets.lookup name).isSome = true
  · rw [if_pos hex] at h
    left
    injection h with h'
    exact h'.symm
  · rw [if_neg hex] at h
    right
    split at h
    · exact Option.noConfusion h
    · split at h
      · exact Option.noConfusion h
      · split at h
        · exact Option.noConfusion h
        · split at h
          · exact Option.noConfusion h
          · split at h
            · exact Option.noConfusion h
            · split at h
              · exact Option.noConfusion h
              · injection h with h2
                exact ⟨_, h2.symm⟩

theorem loadUarchsLoop_preserves :
    ∀ (fields : List (String × Json)) (targets : List (String × Microarchitecture))
      {n : String} {m : Microarchitecture},
      targets.lookup n = some m →
      ((loadUarchsLoop targets fields).1).lookup n = some m := by
  intro fields
  induction fields with
  | nil => intro targets n m h; exact h
  | cons kv rest ih =>
    intro targets n m h
    obtain ⟨k, v⟩ := kv
    rw [loadUarchsLoop]
    cases hft : fillTarget targets k v with
    | some t' =>
      simp only []
      refine ih t' ?_
      rcases fillTarget_shape hft with heq | ⟨e, heq⟩
      · rw [heq]; exact h
      · rw [heq]; exact lookup_append_left [e] h
    | none => simp only []; exact h

theorem loadStage1_preserves {db : MicroarchitectureDatabase} {j : Json}
    {n : String} {m : Microarchitecture} (h : db.targets.lookup n = some m) :
    ((loadStage1 db j).1).targets.lookup n = some m := by
  rw [loadStage1]
  by_cases hc : j.containsKey "microarchitectures" = true
  · rw [if_pos hc]
    cases hfld : (j.getKey "microarchitectures").fields? with
    | some fields =>
      have hp := loadUarchsLoop_preserves fields db.targets h
      rcases hul : loadUarchsLoop db.targets fields with ⟨t', ok⟩
      exact hp
    | none => exact h
  · rw [if_neg hc]; exact h

theorem loadStage2_targets (db : MicroarchitectureDatabase) (j : Json) :
    ((loadStage2 db j).1).targets = db.targets := by
  rw [loadStage2]
  by_cases hc : j.containsKey "feature_aliases" = true
  · rw [if_pos hc]
    cases hfld : (j.getKey "feature_aliases").fields? with
    | some fields => rfl
    | none => rfl
  · rw [if_neg hc]

theorem loadDarwin_targets (db : MicroarchitectureDatabase) (conv : Json) :
    ((loadDarwin db conv).1).targets = db.targets := by
  rw [loadDarwin]
  by_cases hc : conv.containsKey "darwin_flags" = true
  · rw [if_pos hc]
    cases hfld : (conv.getKey "darwin_flags").fields? with
    | some fields => rfl
    | none => rfl
  · rw [if_neg hc]

theorem loadArm_targets (db : MicroarchitectureDatabase) (conv : Json) :
    ((loadArm db conv).1).targets = db.targets := by
  rw [loadArm]
  by_cases hc : conv.containsKey "arm_vendors" = true
  · rw [if_pos hc]
    cases hfld : (conv.getKey "arm_vendors").fields? with
    | some fields => rfl
    | none => rfl
  · rw [if_neg hc]

theorem loadStage3_targets (db : MicroarchitectureDatabase) (j : Json) :
    ((loadStage3 db j).1).targets = db.targets := by
  rw [loadStage3]
  by_cases hc : j.containsKey "conversions" = true
  · rw [if_pos hc]
    simp only []
    split
    · exact loadDarwin_targets db _
    · rw [loadArm_targets, loadDarwin_targets]
  · rw [if_neg hc]

theorem loadFromJson_targets_preserves {db : MicroarchitectureDatabase} {j : Json}
    {n : String} {m : Microarchitecture} (h : db.targets.lookup n = some m) :
    ((loadFromJson db j).1).targets.lookup n = some m := by
  rw [loadFromJson]
  simp only []
  split
  · exact loadStage1_preserves h
  · split
    · rw [loadStage2_targets]
      exact loadStage1_preserves h
    · split
      · rw [loadStage3_targets, loadStage2_targets]
        exact loadStage1_preserves h
      · show List.lookup n
            (loadStage3 (loadStage2 (loadStage1 db j).1 j).1 j).1.targets = some m
        rw [loadStage3_targets, loadStage2_targets]
        exact loadStage1_preserves h

/-- C9 counterexample: loading a document that reassigns a
previously-loaded feature alias and then fails on a malformed element
returns the failure flag but has already replaced the old alias binding —
the previously-loaded tables are not merely left unchanged or additively
extended. -/
theorem C9_counterexample :
    (loadFromString exDb9 (some exDoc9)).2 = false ∧
    exDb9.feature_aliases.lookup "x" = some {"a"} ∧
    ((loadFromString exDb9 (some exDoc9)).1).feature_aliases.lookup "x" =
      some {"b"} ∧
    ({"b"} : Finset String) ≠ {"a"} := by
  refine ⟨by decide, by decide, by decide, by decide⟩

/-- C9 amended: a parse failure returns the failure flag with the store
untouched; ingestion (successful or failed) only extends the target table
— every previously-stored descriptor is still found unchanged under its
name — and filling a name that already exists is a per-entry no-op, so
the first write wins; the alias, family and conversion tables, however,
are assigned per key and may replace previously-loaded entries whole. -/
theorem C9_load_targets_additive :
    (∀ db : MicroarchitectureDatabase, loadFromString db none = (db, false)) ∧
    (∀ (db : MicroarchitectureDatabase) (parsed : Option Json) (n : String)
        (m : Microarchitecture),
      db.targets.lookup n = some m →
      ((loadFromString db parsed).1).targets.lookup n = some m) ∧
    (∀ (targets : List (String × Microarchitecture)) (name : String) (data : Json),
      (targets.lookup name).isSome = true →
      fillTarget targets name data = some targets) := by
  refine ⟨fun db => rfl, ?_, ?_⟩
  · intro db parsed n m h
    cases parsed with
    | none => exact h
    | some j => exact loadFromJson_targets_preserves h
  · intro targets name data h
    exact fillTarget_existing data h

/-! ### Witnesses: the theorems instantiated on concrete stores -/

/-- C1 witness: an unrecognized architecture with no store entry yields the
freshly constructed generic descriptor, whose name is non-empty. -/
theorem C1_witness :
    host false "testarch" exDbX exInfoX = generic_microarchitecture "testarch" ∧
    (host false "testarch" exDbX exInfoX).name ≠ "" := by
  have h := C1_host_usable false "testarch" exDbX exInfoX
  exact ⟨(h.1 (by decide)).1, h.2 (by decide) (by decide)⟩

/-- C3 witness: x86_64 is an ancestor of haswell in the concrete store, so
x86_64 < haswell. -/
theorem C3_witness : exRootX.lt exDbX exHaswell = true := by
  refine C3_ancestor_implies_lt exDbX exRank exRootX exHaswell ?_ ?_ ?_ ?_ ?_
  · intro s
    rw [exRank]
    split <;> decide
  · intro p mp q hget hq
    have hp : p = "x86_64" ∨ p = "haswell" := by
      have hk := lookup_isSome_mem_keys (l := exDbX.targets) (k := p)
        (by rw [show exDbX.targets.lookup p = exDbX.get p from rfl, hget]; rfl)
      simpa [exDbX] using hk
    rcases hp with rfl | rfl
    · have hmp : mp = exRootX := by
        have hx : exDbX.get "x86_64" = some exRootX := by decide
        rw [hx] at hget
        injection hget with h2
        exact h2.symm
      rw [hmp] at hq
      simp [exRootX] at hq
    · have hmp : mp = exHaswell := by
        have hx : exDbX.get "haswell" = some exHaswell := by decide
        rw [hx] at hget
        injection hget with h2
        exact h2.symm
      rw [hmp] at hq
      simp only [exHaswell] at hq
      have : q = "x86_64" := by simpa using hq
      rw [this]
      decide
  · decide
  · decide
  · decide

/-- C4 witness: a single-parent descriptor meets the no-collision condition,
so its ancestor list has no duplicates. -/
theorem C4_witness : (exHaswell.ancestors exDbX).Nodup := by
  have h := C4_ancestors_shape exDbX exHaswell
  refine h.2.2.2 (by decide) ?_
  intro p hp q hq hpq mq hget
  simp [exHaswell] at hp hq
  exact absurd (hp.trans hq.symm) hpq

/-- C5 witness: the source and spec descriptions agree on the concrete gcc
query for haswell. -/
theorem C5_witness :
    optimization_flagsF exDbX 3 exHaswell "gcc" "10.0" =
      optimizationFlagsSpecF exDbX 3 exHaswell "gcc" "10.0" :=
  C5_optimization_flags_matches_spec exDbX 3 exHaswell "gcc" "10.0"
    (by decide) (by decide) (by decide)

/-- C6 witness: the explicitly-mapped base name m1 round-trips. -/
theorem C6_witness :
    normalize_cpu_name (exM1A.family exDb7) (get_llvm_cpu_name exDb7 exM1A) =
      exM1A.name :=
  C6_roundtrip_explicit exDb7 exM1A (Or.inl ⟨by decide, by decide⟩)

/-- C7 witness: a vendor-matching in-family descriptor whose features are
covered by the signal is accepted and retained. -/
theorem C7_witness :
    check_aarch64 false exDb7 exInfo7 exM1A = true ∧
    exM1A ∈ compatible_microarchitectures false "aarch64" exDb7 exInfo7 := by
  have h := C7_aarch64_vendor_check exDb7 exInfo7 exM1A
  have hc : check_aarch64 false exDb7 exInfo7 exM1A = true :=
    h.2.1 (by decide) (by decide) (by decide) (by decide)
  exact ⟨hc, h.2.2 hc ⟨"m1", by decide⟩⟩

/-- C8 witness: a feature name unknown to the store resolves to false. -/
theorem C8_witness : exHaswell.has_feature exDb8 "quantum" = false := by
  have h := C8_has_feature_characterization exDb8 exHaswell "quantum"
  exact h.2 (by decide) (by decide) (by decide)

/-- C9 witness: a parse failure leaves the store untouched, and re-loading
an already-present name keeps the stored descriptor reachable. -/
theorem C9_witness :
    loadFromString exDbX none = (exDbX, false) ∧
    ((loadFromString exDbX (some (Json.obj []))).1).targets.lookup "haswell" =
      some exHaswell := by
  have h := C9_load_targets_additive
  exact ⟨h.1 exDbX, h.2.1 exDbX (some (Json.obj [])) "haswell" exHaswell (by decide)⟩

/-- C10 witness: a ppc64 feature passes through unchanged and the
translation is the identity on a ppc64 root with ordinary features. -/
theorem C10_witness :
    map_feature_to_llvm "ppc64" "altivec" = "altivec" ∧
    get_llvm_features exDbP exRootP = exRootP.features := by
  have h := C10_unmapped_family_identity
  exact ⟨h.1 "ppc64" "altivec" (by decide), h.2 exDbP exRootP (by decide) (by decide)⟩

end Archspec
